import Mathlib

/-!
Verification of the `extn` template inheritance and merging engine:
shallow embedding of `src/core/template/engine.ts` (class `TemplateEngine`
and class `TemplateRegistry`), together with proofs of the specification
claims about them.

Strings are modelled as `List Char`; the JavaScript string primitives that
the source uses (`String.prototype.includes`, `String.prototype.replace`
with a string pattern, i.e. first-occurrence replacement) are given
executable definitions below.  JavaScript `Map` objects are modelled as
insertion-ordered association lists with the `set`/`get`/`delete`/`values`
semantics of the ECMAScript specification.  File-system access and
`JSON.parse`/`JSON.stringify` are platform collaborators, not repository
code; they are modelled as explicit parameters (a listing function, a
partial parse function and a serializer).
-/

namespace Extn

/-- JavaScript regex `\w` (no `u` flag): ASCII letters, digits and underscore. -/
def isWordChar (c : Char) : Bool :=
  c.isAlpha || c.isDigit || c = '_'

/-- JavaScript regex `\s` (the ASCII whitespace cases that matter here). -/
def isWsChar (c : Char) : Bool :=
  c = ' ' || c = '\t' || c = '\n' || c = '\r'

/-- JavaScript `haystack.includes(needle)`: does `pat` occur as a contiguous
substring of `s`? -/
def hasSub (pat : List Char) : List Char → Bool
  | [] => pat.isEmpty
  | c :: t => pat.isPrefixOf (c :: t) || hasSub pat t

/-- ECMAScript `GetSubstitution` for a *string* search pattern (no capture
groups): in the replacement template, a dollar sign followed by another
dollar sign yields one dollar sign, followed by an ampersand yields the
matched substring, followed by a grave accent (`\x60`) yields the portion
of the subject string before the match, and followed by an apostrophe
(`\x27`) yields the portion after the match; every other dollar sequence —
including a trailing lone dollar and digit references, since a string
pattern has no captures — is copied literally. -/
def getSubstitution (matched before after : List Char) : List Char → List Char
  | [] => []
  | c :: rest =>
    if c = '$' then
      match rest with
      | [] => ['$']
      | c2 :: rest2 =>
        if c2 = '$' then '$' :: getSubstitution matched before after rest2
        else if c2 = '&' then matched ++ getSubstitution matched before after rest2
        else if c2 = '\x60' then before ++ getSubstitution matched before after rest2
        else if c2 = '\x27' then after ++ getSubstitution matched before after rest2
        else '$' :: c2 :: getSubstitution matched before after rest2
    else c :: getSubstitution matched before after rest

/-- The scan underlying JavaScript `s.replace(pat, rep)` with a *string*
pattern: find the first (leftmost) occurrence of `pat`, substitute the
`GetSubstitution`-expanded replacement there, and copy everything else;
`before` accumulates the already-copied prefix (needed by the expansion of
the dollar-grave-accent escape). -/
def replaceFirstAux (pat rep : List Char) : List Char → List Char → List Char
  | before, [] => if pat.isEmpty then getSubstitution pat before [] rep else []
  | before, c :: t =>
    if pat.isPrefixOf (c :: t) then
      getSubstitution pat before ((c :: t).drop pat.length) rep
        ++ (c :: t).drop pat.length
    else c :: replaceFirstAux pat rep (before ++ [c]) t

/-- JavaScript `s.replace(pat, rep)` with a *string* pattern: replaces only
the first (leftmost) occurrence of `pat` with the `GetSubstitution`
expansion of `rep`, and returns `s` unchanged if there is none. -/
def replaceFirst (pat rep s : List Char) : List Char :=
  replaceFirstAux pat rep [] s

/-- Number of (possibly overlapping) occurrences of `pat` in `s`, counted by
start position. -/
def countOcc (pat : List Char) : List Char → Nat
  | [] => if pat.isEmpty then 1 else 0
  | c :: t => (if pat.isPrefixOf (c :: t) then 1 else 0) + countOcc pat t

/-! ## The partial marker and the renaming combinatorics

`mergePartialFiles` renames a partial file by
`baseFile.path.replace('.partial.', '.')`.  The following lemmas establish
that when the marker occurs at most once in a path, the renamed path is
marker-free — and the counterexample for claim C1 shows that with two
(overlapping) occurrences it is not. -/
/-- The partial-file marker `'.partial.'` from `mergePartialFiles`. -/
def partialMarker : List Char := ".partial.".toList

/-- The replacement string `'.'` used to strip the marker. -/
def dotRep : List Char := ".".toList

/-! ## The template renderer (`renderFile` and its two passes)

`processConditionals` embeds the JavaScript global replace with
`/\{\{#if\s+(\w+)\}\}([\s\S]*?)\{\{\/if\}\}/g` and `processVariables` the
global replace with `/\{\{(\w+)\}\}/g`.  A JavaScript global string replace
scans the *original* string left to right for non-overlapping matches; on a
failed match attempt it advances one character; replacement text is emitted
verbatim and never rescanned.  The scanners below implement exactly that. -/
/-- The rendering context: `[key: string]: string | undefined`. -/
def TemplateContext : Type := String → Option String

/-- JavaScript truthiness of a `string | undefined` value
(`undefined` and `''` are falsy). -/
def truthy : Option String → Bool
  | none => false
  | some s => s != ""

/-- Try to match `\{\{(\w+)\}\}` at the start of `s`; on success return the
captured name and the remainder after the match. -/
def parseVar (s : List Char) : Option (List Char × List Char) :=
  if "\x7b\x7b".toList.isPrefixOf s then
    let u := s.drop 2
    let w := u.takeWhile isWordChar
    if w.isEmpty then none
    else if "\x7d\x7d".toList.isPrefixOf (u.drop w.length) then
      some (w, (u.drop w.length).drop 2)
    else none
  else none

/-- One pass of the global replace `/\{\{(\w+)\}\}/g` with the source's
replacement callback: defined names substitute their value, undefined names
keep the matched text.  The `fuel` argument makes the recursion structural
(so that the scanner evaluates inside the kernel); `parseVar_length`
guarantees that `fuel = s.length` never runs out, and the out-of-fuel
branch is unreachable under that call pattern. -/
def scanVarsF (ctx : TemplateContext) : Nat → List Char → List Char
  | _, [] => []
  | 0, s => s
  | Nat.succ fuel, c :: t =>
    match parseVar (c :: t) with
    | some (w, r) =>
      (match ctx (String.mk w) with
       | some v => v.toList
       | none => "\x7b\x7b".toList ++ w ++ "\x7d\x7d".toList) ++ scanVarsF ctx fuel r
    | none => c :: scanVarsF ctx fuel t

/-- The variable scan, with adequate fuel. -/
def scanVars (ctx : TemplateContext) (s : List Char) : List Char :=
  scanVarsF ctx s.length s

/-- Try to match `\{\{#if\s+(\w+)\}\}` at the start of `s`. -/
def parseHeader (s : List Char) : Option (List Char × List Char) :=
  if "\x7b\x7b#if".toList.isPrefixOf s then
    let t := s.drop 5
    let ws := t.takeWhile isWsChar
    if ws.isEmpty then none
    else
      let u := t.drop ws.length
      let w := u.takeWhile isWordChar
      if w.isEmpty then none
      else if "\x7d\x7d".toList.isPrefixOf (u.drop w.length) then
        some (w, (u.drop w.length).drop 2)
      else none
  else none

/-- Locate the first (lazy `[\s\S]*?`) occurrence of `{{/if}}`; return the
text before it and the remainder after it. -/
def findClose : List Char → Option (List Char × List Char)
  | [] => none
  | c :: t =>
    if "\x7b\x7b/if\x7d\x7d".toList.isPrefixOf (c :: t) then some ([], (c :: t).drop 7)
    else
      match findClose t with
      | some (blk, r) => some (c :: blk, r)
      | none => none

/-- One pass of the global replace
`/\{\{#if\s+(\w+)\}\}([\s\S]*?)\{\{\/if\}\}/g`: a truthy condition keeps the
block, otherwise it is dropped; the block is emitted verbatim, not rescanned.
Structural fuel as in `scanVarsF`; `parseHeader_length` and
`findClose_length` guarantee `fuel = s.length` suffices. -/
def scanCondF (ctx : TemplateContext) : Nat → List Char → List Char
  | _, [] => []
  | 0, s => s
  | Nat.succ fuel, c :: t =>
    match parseHeader (c :: t) with
    | some (w, after) =>
      match findClose after with
      | some (blk, r) =>
        (if truthy (ctx (String.mk w)) then blk else []) ++ scanCondF ctx fuel r
      | none => c :: scanCondF ctx fuel t
    | none => c :: scanCondF ctx fuel t

/-- The conditional scan, with adequate fuel. -/
def scanCond (ctx : TemplateContext) (s : List Char) : List Char :=
  scanCondF ctx s.length s

/-- `processVariables` from `TemplateEngine`: substitution of `{{variable}}`
tokens. -/
def processVariables (content : String) (context : TemplateContext) : String :=
  String.mk (scanVars context content.toList)

/-- `processConditionals` from `TemplateEngine`: evaluation of
`{{#if variable}}...{{/if}}` blocks. -/
def processConditionals (content : String) (context : TemplateContext) : String :=
  String.mk (scanCond context content.toList)

/-- `renderFile` from `TemplateEngine`: conditionals first, then variable
substitution. -/
def renderFile (content : String) (context : TemplateContext) : String :=
  processVariables (processConditionals content context) context

/-! ## Files, JavaScript maps, and the merge functions -/
/-- The `encoding` union type `'utf-8' | 'binary'` of `TemplateFile`. -/
inductive Encoding where
  | utf8 : Encoding
  | binary : Encoding
deriving DecidableEq, Repr

/-- `TemplateFile` from the source. -/
structure TemplateFile where
  path : String
  content : String
  encoding : Encoding
deriving DecidableEq, Repr

/-- String-level `haystack.includes(needle)`. -/
def includesS (s pat : String) : Bool := hasSub pat.toList s.toList

/-- String-level first-occurrence `s.replace(pat, rep)`. -/
def replaceS (s pat rep : String) : String :=
  String.mk (replaceFirst pat.toList rep.toList s.toList)

/-- A JavaScript `Map<string, V>`: insertion-ordered association list with
unique keys.  `set` on a present key updates the value in place (ECMAScript
keeps the original insertion position). -/
def jsMapSet {V : Type} (m : List (String × V)) (k : String) (v : V) :
    List (String × V) :=
  if m.any (fun p => p.1 == k) then
    m.map (fun p => if p.1 == k then (k, v) else p)
  else m ++ [(k, v)]

/-- `Map.prototype.get` (as an `Option`). -/
def jsMapGet {V : Type} (m : List (String × V)) (k : String) : Option V :=
  (m.find? (fun p => p.1 == k)).map (fun p => p.2)

/-- `Map.prototype.delete`. -/
def jsMapDelete {V : Type} (m : List (String × V)) (k : String) :
    List (String × V) :=
  m.filter (fun p => !(p.1 == k))

/-- `Map.prototype.values()` in insertion order. -/
def jsMapValues {V : Type} (m : List (String × V)) : List V :=
  m.map (fun p => p.2)

/-- The README placeholder constant from `mergePartialFiles`. -/
def placeholder : String := "<!-- DEV_WORKFLOW_PARTIAL_PLACEHOLDER -->"

/-- The per-base-file loop body of `mergePartialFiles`, threading the result
accumulator and the (mutated-by-`delete`) template-file map. -/
def mergePartialLoop :
    List TemplateFile → List (String × TemplateFile) →
      List TemplateFile × List (String × TemplateFile)
  | [], m => ([], m)
  | baseFile :: rest, m =>
    if includesS baseFile.path ".partial." then
      -- extract the target filename (remove .partial from the name)
      let targetPath := replaceS baseFile.path ".partial." "."
      match jsMapGet m targetPath with
      | some templateFile =>
        let mergedContent :=
          if includesS targetPath "README" then
            if includesS templateFile.content placeholder then
              replaceS templateFile.content placeholder baseFile.content
            else templateFile.content ++ "\n" ++ baseFile.content
          else templateFile.content ++ "\n" ++ baseFile.content
        let m' := jsMapDelete m targetPath
        let res := mergePartialLoop rest m'
        (⟨targetPath, mergedContent, templateFile.encoding⟩ :: res.1, res.2)
      | none =>
        let res := mergePartialLoop rest m
        (⟨targetPath, baseFile.content, baseFile.encoding⟩ :: res.1, res.2)
    else
      let res := mergePartialLoop rest m
      (baseFile :: res.1, res.2)

/-- `mergePartialFiles` from `TemplateEngine`. -/
def mergePartialFiles (baseFiles templateFiles : List TemplateFile) :
    List TemplateFile :=
  let templateFileMap :=
    templateFiles.foldl (fun m f => jsMapSet m f.path f)
      ([] : List (String × TemplateFile))
  let res := mergePartialLoop baseFiles templateFileMap
  res.1 ++ jsMapValues res.2

/-! ### Package-descriptor objects

`mergePackageJson` receives `Record<string, unknown>` objects produced by
`JSON.parse`.  A top-level value is modelled either as a nested
string-to-string map (the shape the three special keys have in a package
descriptor) or as an opaque primitive carrying its JavaScript truthiness;
for a primitive, `(x as Record<string,string>) || {}` followed by object
spread contributes no entries, which is exactly JavaScript's behaviour for
numbers, booleans, `null` and `undefined`.  (A *string* value would spread
to character-index entries in JavaScript; string-valued
`scripts`/`dependencies` fields are outside this model.) -/
inductive JVal where
  | smap : (String → Option String) → JVal
  | prim : Bool → Nat → JVal

/-- A parsed top-level object: key to optional value. -/
def PkgObj : Type := String → Option JVal

/-- `(x as Record<string, string>) || {}` followed by object spread. -/
def asStrMap : Option JVal → (String → Option String)
  | some (JVal.smap m) => m
  | some (JVal.prim _ _) => fun _ => none
  | none => fun _ => none

/-- `mergeDependencies` from `TemplateEngine`: `{...base, ...template}`. -/
def mergeDependencies (base template : String → Option String) :
    String → Option String :=
  fun k => template k <|> base k

/-- `mergePackageJson` from `TemplateEngine`:
`{...basePackage, ...templatePackage, scripts: ..., dependencies: ...,
devDependencies: ...}` — the three trailing explicit keys override both
spreads. -/
def mergePackageJson (basePackage templatePackage : PkgObj) : PkgObj :=
  fun k =>
    if k = "scripts" then
      some (JVal.smap (fun s =>
        asStrMap (templatePackage "scripts") s <|> asStrMap (basePackage "scripts") s))
    else if k = "dependencies" then
      some (JVal.smap (mergeDependencies
        (asStrMap (basePackage "dependencies"))
        (asStrMap (templatePackage "dependencies"))))
    else if k = "devDependencies" then
      some (JVal.smap (mergeDependencies
        (asStrMap (basePackage "devDependencies"))
        (asStrMap (templatePackage "devDependencies"))))
    else templatePackage k <|> basePackage k

/-! ### Directory rendering and the inheritance orchestrator

`render` walks a directory recursively with `fs.readdir`/`fs.stat` and emits
one `TemplateFile` per regular file.  The traversal itself is platform I/O;
it is modelled as a listing function from a root path to the ordered list of
(relative path, raw content) pairs the walk produces.  `fs.stat(basePath)`
succeeding is modelled by `pathExists`. -/
structure FileSystem where
  pathExists : String → Bool
  listing : String → List (String × String)

/-- `render` from `TemplateEngine`: every file's content and relative path
are passed through `renderFile`, and every file is tagged `'utf-8'`. -/
def render (fsys : FileSystem) (templatePath : String)
    (context : TemplateContext) : List TemplateFile :=
  (fsys.listing templatePath).map (fun e =>
    { path := renderFile e.1 context
      content := renderFile e.2 context
      encoding := Encoding.utf8 })

/-- The package-descriptor filename test used by `renderWithInheritance`. -/
def isPkgPath (f : TemplateFile) : Bool :=
  f.path == "package.json.template" || f.path == "package.json"

/-- `renderWithInheritance` from `TemplateEngine`.  `parseJson` models
`JSON.parse` (`none` = the parse threw) and `stringifyJson` models
`JSON.stringify(·, null, 2)`. -/
def renderWithInheritance (fsys : FileSystem)
    (parseJson : String → Option PkgObj) (stringifyJson : PkgObj → String)
    (templatePath : String) (basePath : Option String)
    (context : TemplateContext) : List TemplateFile :=
  match basePath with
  | none => render fsys templatePath context
  | some bp =>
    -- `if (!basePath)` is also taken for the (falsy) empty string
    if bp = "" then render fsys templatePath context
    else if !(fsys.pathExists bp) then render fsys templatePath context
    else
      let baseFiles := render fsys bp context
      let templateFiles := render fsys templatePath context
      let basePackageFile := baseFiles.find? isPkgPath
      let templatePackageFile := templateFiles.find? isPkgPath
      let templateFiles' :=
        match basePackageFile, templatePackageFile with
        | some bpf, some tpf =>
          match parseJson bpf.content, parseJson tpf.content with
          | some basePackage, some templatePackage =>
            let mergedPackage := mergePackageJson basePackage templatePackage
            match templateFiles.findIdx? (fun f => f.path == tpf.path) with
            | some i =>
              templateFiles.set i
                ⟨tpf.path, stringifyJson mergedPackage, tpf.encoding⟩
            | none => templateFiles
          | _, _ => templateFiles  -- a parse threw: keep the template version
        | _, _ => templateFiles
      let mergedFiles := mergePartialFiles baseFiles templateFiles'
      let fileMap := mergedFiles.foldl
        (fun m f => if includesS f.path ".partial." then m else jsMapSet m f.path f)
        ([] : List (String × TemplateFile))
      jsMapValues fileMap

/-! ## The template registry -/
/-- `Template` from the registry module.  The source's `extends` field is
named `extendsBase` here (`extends` is a Lean keyword). -/
structure Template where
  id : String
  name : String
  description : String
  files : String
  dependencies : List String
  devDependencies : List String
  scripts : Option (String → Option String)
  extendsBase : Option String

/-- The registry's in-memory `Map<string, Template>` as a lookup function. -/
def TemplateRegistry : Type := String → Option Template

/-- `TemplateRegistry.get`. -/
def regGet (templates : TemplateRegistry) (id : String) : Option Template :=
  templates id

/-- An absent `scripts` field defaults to the empty map (`|| {}`). -/
def scriptsOrEmpty (t : Template) : String → Option String :=
  t.scripts.getD (fun _ => none)

/-- `TemplateRegistry.getWithBase`. -/
def getWithBase (templates : TemplateRegistry) (id : String) : Option Template :=
  match templates id with
  | none => none
  | some t =>
    match t.extendsBase with
    | none => some t
    | some ext =>
      match templates ext with
      | none => some t  -- base template not found, return template as-is
      | some baseTemplate =>
        some { t with
          dependencies := baseTemplate.dependencies ++ t.dependencies
          devDependencies := baseTemplate.devDependencies ++ t.devDependencies
          scripts := some (fun k =>
            scriptsOrEmpty t k <|> scriptsOrEmpty baseTemplate k) }

@[simp] theorem hasSub_nil (pat : List Char) : hasSub pat [] = pat.isEmpty := rfl

theorem hasSub_cons (pat : List Char) (c : Char) (t : List Char) :
    hasSub pat (c :: t) = (pat.isPrefixOf (c :: t) || hasSub pat t) := rfl

theorem hasSub_nil_pat (s : List Char) : hasSub [] s = true := by
  cases s with
  | nil => rfl
  | cons c t => rw [hasSub_cons]; rfl

/-- `hasSub` detects any explicit decomposition. -/
theorem hasSub_of_append (pat a b : List Char) :
    hasSub pat (a ++ pat ++ b) = true := by
  induction a with
  | nil =>
    cases hpat : pat with
    | nil => subst hpat; exact hasSub_nil_pat _
    | cons c t =>
      rw [List.nil_append, ← hpat]
      have hcons : ∃ d u, pat ++ b = d :: u := by
        cases h : pat ++ b with
        | nil => rw [List.append_eq_nil] at h; exact absurd h.1 (by simp [hpat])
        | cons d u => exact ⟨d, u, rfl⟩
      obtain ⟨d, u, hdu⟩ := hcons
      rw [hdu, hasSub_cons, ← hdu]
      have hpfx : pat.isPrefixOf (pat ++ b) = true := by
        rw [ List.isPrefixOf_iff_prefix]; exact List.prefix_append _ _
      simp [hpfx]
  | cons c a ih =>
    have hshape : (c :: a) ++ pat ++ b = c :: (a ++ pat ++ b) := by simp
    rw [hshape, hasSub_cons, ih]
    simp

theorem hasSub_iff (pat s : List Char) (hne : pat ≠ []) :
    hasSub pat s = true ↔ ∃ a b, s = a ++ pat ++ b := by
  constructor
  · intro h
    induction s with
    | nil =>
      rw [hasSub_nil, List.isEmpty_iff] at h
      exact absurd h hne
    | cons c t ih =>
      rw [hasSub_cons, Bool.or_eq_true] at h
      rcases h with h | h
      · rw [ List.isPrefixOf_iff_prefix] at h
        obtain ⟨b, hb⟩ := h
        exact ⟨[], b, by simp [hb.symm]⟩
      · obtain ⟨a, b, hab⟩ := ih h
        exact ⟨c :: a, b, by simp [hab]⟩
  · rintro ⟨a, b, rfl⟩
    exact hasSub_of_append pat a b

/-- A replacement template containing no dollar sign expands to itself. -/
theorem getSubstitution_no_dollar (matched before after rep : List Char)
    (h : '$' ∉ rep) : getSubstitution matched before after rep = rep := by
  induction rep with
  | nil => rfl
  | cons c rest ih =>
    have hc : c ≠ '$' := fun hcon => h (hcon ▸ List.mem_cons_self _ _)
    have hrest : '$' ∉ rest := fun hcon => h (List.mem_cons_of_mem _ hcon)
    rw [getSubstitution.eq_def]
    simp only
    rw [if_neg hc, ih hrest]

/-- With a dollar-free replacement the copied prefix is irrelevant. -/
theorem replaceFirstAux_before_irrel (pat rep : List Char) (h : '$' ∉ rep) :
    ∀ (s b1 b2 : List Char),
      replaceFirstAux pat rep b1 s = replaceFirstAux pat rep b2 s := by
  intro s
  induction s with
  | nil =>
    intro b1 b2
    unfold replaceFirstAux
    split
    · rw [getSubstitution_no_dollar _ _ _ _ h, getSubstitution_no_dollar _ _ _ _ h]
    · rfl
  | cons c t ih =>
    intro b1 b2
    unfold replaceFirstAux
    split
    · rw [getSubstitution_no_dollar _ _ _ _ h, getSubstitution_no_dollar _ _ _ _ h]
    · rw [ih (b1 ++ [c]) (b2 ++ [c])]

/-- If the pattern does not occur, the replacement scan copies the string
verbatim. -/
theorem replaceFirstAux_of_not_hasSub (pat rep : List Char) :
    ∀ (s before : List Char), hasSub pat s = false →
      replaceFirstAux pat rep before s = s := by
  intro s
  induction s with
  | nil =>
    intro before h
    rw [hasSub_nil] at h
    simp [replaceFirstAux, h]
  | cons c t ih =>
    intro before h
    rw [hasSub_cons, Bool.or_eq_false_iff] at h
    simp [replaceFirstAux, h.1, ih _ h.2]

/-- If the pattern does not occur, first-occurrence replacement is the
identity. -/
theorem replaceFirst_of_not_hasSub (pat rep s : List Char)
    (h : hasSub pat s = false) : replaceFirst pat rep s = s :=
  replaceFirstAux_of_not_hasSub pat rep s [] h

/-- Structure of the replacement scan: the string splits at the leftmost
occurrence, and the expanded replacement sees the text on both sides. -/
theorem replaceFirstAux_decomp (pat rep : List Char) (hne : pat ≠ []) :
    ∀ (s before : List Char), hasSub pat s = true →
      ∃ a b, s = a ++ pat ++ b
        ∧ replaceFirstAux pat rep before s
          = a ++ getSubstitution pat (before ++ a) b rep ++ b := by
  intro s
  induction s with
  | nil =>
    intro before h
    rw [hasSub_nil, List.isEmpty_iff] at h
    exact absurd h hne
  | cons c t ih =>
    intro before h
    by_cases hp : pat.isPrefixOf (c :: t) = true
    · obtain ⟨u, hu⟩ := List.isPrefixOf_iff_prefix.mp hp
      refine ⟨[], u, by simp [hu.symm], ?_⟩
      have hdrop : (c :: t).drop pat.length = u := by
        rw [← hu]; exact List.drop_left _ _
      simp [replaceFirstAux, hp, hdrop]
    · rw [hasSub_cons, Bool.or_eq_true] at h
      rcases h with h | h
      · exact absurd h hp
      · obtain ⟨a, b, hab, hrf⟩ := ih (before ++ [c]) h
        refine ⟨c :: a, b, by simp [hab], ?_⟩
        simp only [replaceFirstAux, hp, if_false, Bool.false_eq_true]
        rw [hrf]
        simp

/-- Structure of a first-occurrence replacement: the string splits at the
leftmost occurrence and the replacement is inserted after `GetSubstitution`
expansion against that occurrence's context. -/
theorem replaceFirst_decomp (pat rep s : List Char) (hne : pat ≠ [])
    (h : hasSub pat s = true) :
    ∃ a b, s = a ++ pat ++ b
      ∧ replaceFirst pat rep s = a ++ getSubstitution pat a b rep ++ b := by
  obtain ⟨a, b, hab, hrf⟩ := replaceFirstAux_decomp pat rep hne s [] h
  refine ⟨a, b, hab, ?_⟩
  show replaceFirstAux pat rep [] s = _
  rw [hrf]
  simp


theorem countOcc_eq_zero_iff (pat s : List Char) (hne : pat ≠ []) :
    countOcc pat s = 0 ↔ hasSub pat s = false := by
  induction s with
  | nil =>
    have hemp : pat.isEmpty = false := by
      cases pat with
      | nil => exact absurd rfl hne
      | cons c t => rfl
    simp [countOcc, hasSub, hemp]
  | cons c t ih =>
    rw [countOcc, hasSub_cons]
    by_cases hp : pat.isPrefixOf (c :: t) = true
    · simp [hp]
    · rw [eq_false_of_ne_true hp]
      simp [ih]

theorem hasSub_of_hasSub_suffix (pat pre s : List Char)
    (h : hasSub pat s = true) : hasSub pat (pre ++ s) = true := by
  induction pre with
  | nil => simpa using h
  | cons c p ih =>
    have hshape : (c :: p) ++ s = c :: (p ++ s) := by simp
    rw [hshape, hasSub_cons, ih]
    simp

theorem partialMarker_ne_nil : partialMarker ≠ [] := by decide

/-- If `'.partial.'` is a prefix of `c ::` the *renamed* tail, it was already
a prefix of `c ::` the original tail.  (Renaming never creates a marker
occurrence at an untouched position to its left.) -/
theorem marker_prefix_cons_replaceFirst (c : Char) (t : List Char)
    (h : partialMarker.isPrefixOf (c :: replaceFirst partialMarker dotRep t) = true) :
    partialMarker.isPrefixOf (c :: t) = true := by
  by_cases hs : hasSub partialMarker t = true
  · obtain ⟨a, b, hab, hrf⟩ :=
      replaceFirst_decomp partialMarker dotRep t partialMarker_ne_nil hs
    rw [getSubstitution_no_dollar _ _ _ _ (by decide)] at hrf
    rw [hrf] at h
    rw [ List.isPrefixOf_iff_prefix] at h ⊢
    have hq : partialMarker = '.' :: "partial.".toList := by decide
    rw [hq, List.cons_prefix_cons] at h
    obtain ⟨hc, hpre⟩ := h
    rw [List.append_assoc] at hpre
    have hq8 : "partial.".toList = (a ++ (dotRep ++ b)).take 8 := by
      have h0 := List.prefix_iff_eq_take.mp hpre
      rw [show ("partial.".toList : List Char).length = 8 from by decide] at h0
      exact h0
    rcases le_or_lt 8 a.length with h8 | h8
    · -- the marker occurrence is at least 8 characters in:
      -- `"partial."` is a prefix of `a`
      have h2 : (a ++ (dotRep ++ b)).take 8 = a.take 8 :=
        List.take_append_of_le_length h8
      have hqa : "partial.".toList <+: a := by
        rw [hq8, h2]; exact List.take_prefix _ _
      obtain ⟨r, hr⟩ := hqa
      rw [hq, List.cons_prefix_cons]
      refine ⟨hc, ?_⟩
      rw [hab, ← hr]
      have hshape : ("partial.".toList ++ r) ++ partialMarker ++ b
          = "partial.".toList ++ (r ++ partialMarker ++ b) := by simp
      rw [hshape]
      exact List.prefix_append _ _
    · -- the occurrence starts fewer than 8 characters in
      have ha : a = ("partial.".toList : List Char).take a.length := by
        have h1 : a = (a ++ (dotRep ++ b)).take a.length :=
          (List.take_left a (dotRep ++ b)).symm
        rw [hq8, List.take_take, Nat.min_eq_left (by omega : a.length ≤ 8)]
        exact h1
      have hmem : a ∈ ([[], ['p'], ['p','a'], ['p','a','r'], ['p','a','r','t'],
          ['p','a','r','t','i'], ['p','a','r','t','i','a'],
          ['p','a','r','t','i','a','l']] : List (List Char)) := by
        rw [ha]
        have hlen : a.length ≤ 7 := by omega
        set k := a.length with hk
        interval_cases k <;> decide
      rw [show (dotRep : List Char) = ['.'] from by decide,
        show ("partial.".toList : List Char) = ['p','a','r','t','i','a','l','.']
          from by decide] at hpre
      fin_cases hmem
      -- the first seven shapes contradict `hpre`
      case _ => simp [List.cons_prefix_cons] at hpre
      case _ => simp [List.cons_prefix_cons] at hpre
      case _ => simp [List.cons_prefix_cons] at hpre
      case _ => simp [List.cons_prefix_cons] at hpre
      case _ => simp [List.cons_prefix_cons] at hpre
      case _ => simp [List.cons_prefix_cons] at hpre
      case _ => simp [List.cons_prefix_cons] at hpre
      -- `a = "partial"`: the original path had the marker at this position
      case _ =>
        rw [hq, hab, List.cons_prefix_cons]
        refine ⟨hc, ?_⟩
        rw [show (partialMarker : List Char) = ['.','p','a','r','t','i','a','l','.']
          from by decide]
        simp [List.cons_prefix_cons]
  · have hid : replaceFirst partialMarker dotRep t = t :=
      replaceFirst_of_not_hasSub _ _ _ (by simpa using hs)
    rwa [hid] at h

/-- Stripping the first `'.partial.'` occurrence from a path that contains
the marker at most once yields a marker-free path. -/
theorem marker_gone_of_countOcc_le_one (s : List Char)
    (h : countOcc partialMarker s ≤ 1) :
    hasSub partialMarker (replaceFirst partialMarker dotRep s) = false := by
  induction s with
  | nil => simp [replaceFirst, hasSub, partialMarker]
  | cons c t ih =>
    by_cases hp : partialMarker.isPrefixOf (c :: t) = true
    · -- the marker occurs right here: the tail contains no further marker
      have hcount : countOcc partialMarker (c :: t) =
          1 + countOcc partialMarker t := by
        rw [countOcc, hp]; simp
      rw [hcount] at h
      have ht0 : countOcc partialMarker t = 0 := by omega
      have htf : hasSub partialMarker t = false :=
        (countOcc_eq_zero_iff _ _ partialMarker_ne_nil).mp ht0
      obtain ⟨u, hu⟩ := List.isPrefixOf_iff_prefix.mp hp
      have hdrop : (c :: t).drop partialMarker.length = u := by
        rw [← hu]; exact List.drop_left _ _
      have hrf : replaceFirst partialMarker dotRep (c :: t) = '.' :: u := by
        show replaceFirstAux partialMarker dotRep [] (c :: t) = '.' :: u
        rw [replaceFirstAux]
        simp only [hp, if_true, hdrop]
        rw [getSubstitution_no_dollar _ _ _ _ (by decide)]
        rfl
      rw [hrf, hasSub_cons]
      have htu : t = "partial.".toList ++ u := by
        have heq : partialMarker ++ u = c :: t := hu
        rw [show (partialMarker : List Char) = '.' :: "partial.".toList
          from by decide, List.cons_append] at heq
        injection heq with heq1 heq2
        exact heq2.symm
      have husub : hasSub partialMarker u = false := by
        by_contra hcon
        rw [Bool.not_eq_false] at hcon
        obtain ⟨a, b, hab⟩ := (hasSub_iff _ _ partialMarker_ne_nil).mp hcon
        have hocc : hasSub partialMarker t = true := by
          rw [htu, hab,
            show ("partial.".toList : List Char) ++ (a ++ partialMarker ++ b)
              = ("partial.".toList ++ a) ++ partialMarker ++ b from by simp]
          exact hasSub_of_append _ _ _
        rw [hocc] at htf
        exact absurd htf (by decide)
      have hnopfx : partialMarker.isPrefixOf ('.' :: u) = false := by
        by_contra hcon
        rw [Bool.not_eq_false, List.isPrefixOf_iff_prefix] at hcon
        obtain ⟨v, hv⟩ := hcon
        have huv : u = "partial.".toList ++ v := by
          have heq : partialMarker ++ v = '.' :: u := hv
          rw [show (partialMarker : List Char) = '.' :: "partial.".toList
            from by decide, List.cons_append] at heq
          injection heq with heq1 heq2
          exact heq2.symm
        have hocc : hasSub partialMarker t = true := by
          rw [htu, huv, ← List.append_assoc,
            show ("partial.".toList : List Char) ++ "partial.".toList
              = "partial".toList ++ partialMarker from by decide]
          exact hasSub_of_append _ _ _
        rw [hocc] at htf
        exact absurd htf (by decide)
      rw [hnopfx, husub]
      rfl
    · have hcount : countOcc partialMarker (c :: t) = countOcc partialMarker t := by
        rw [countOcc, eq_false_of_ne_true hp]; simp
      rw [hcount] at h
      have hrf : replaceFirst partialMarker dotRep (c :: t)
          = c :: replaceFirst partialMarker dotRep t := by
        show replaceFirstAux partialMarker dotRep [] (c :: t)
          = c :: replaceFirstAux partialMarker dotRep [] t
        rw [replaceFirstAux, eq_false_of_ne_true hp]
        simp only [if_false, Bool.false_eq_true]
        rw [replaceFirstAux_before_irrel partialMarker dotRep (by decide) t
          ([] ++ [c]) []]
      rw [hrf, hasSub_cons]
      have h1 : hasSub partialMarker (replaceFirst partialMarker dotRep t) = false :=
        ih h
      have h2 : partialMarker.isPrefixOf
          (c :: replaceFirst partialMarker dotRep t) = false := by
        by_contra hcon
        rw [Bool.not_eq_false] at hcon
        exact hp (marker_prefix_cons_replaceFirst c t hcon)
      rw [h1, h2]
      rfl

theorem parseVar_length (s w r : List Char) (h : parseVar s = some (w, r)) :
    r.length < s.length := by
  unfold parseVar at h
  split at h
  · rename_i hpfx
    simp only at h
    split at h
    · exact absurd h (by simp)
    · split at h
      · have hr : r = ((s.drop 2).drop ((s.drop 2).takeWhile isWordChar).length).drop 2 := by
          injection h with h1
          injection h1 with h2 h3
          exact h3.symm
        have hlen2 : s.length ≥ 2 := by
          have := ( List.isPrefixOf_iff_prefix.mp hpfx).length_le
          simpa using this
        rw [hr]
        simp only [List.length_drop]
        omega
      · exact absurd h (by simp)
  · exact absurd h (by simp)

theorem parseHeader_length (s w r : List Char) (h : parseHeader s = some (w, r)) :
    r.length < s.length := by
  unfold parseHeader at h
  split at h
  · rename_i hpfx
    simp only at h
    split at h
    · exact absurd h (by simp)
    · split at h
      · exact absurd h (by simp)
      · split at h
        · have hr : r = (((s.drop 5).drop ((s.drop 5).takeWhile isWsChar).length).drop
              ((((s.drop 5).drop ((s.drop 5).takeWhile isWsChar).length)).takeWhile
                isWordChar).length).drop 2 := by
            injection h with h1
            injection h1 with h2 h3
            exact h3.symm
          have hlen5 : s.length ≥ 5 := by
            have := ( List.isPrefixOf_iff_prefix.mp hpfx).length_le
            simpa using this
          rw [hr]
          simp only [List.length_drop]
          omega
        · exact absurd h (by simp)
  · exact absurd h (by simp)

theorem findClose_length (s blk r : List Char) (h : findClose s = some (blk, r)) :
    r.length < s.length := by
  induction s generalizing blk r with
  | nil => exact absurd h (by simp [findClose])
  | cons c t ih =>
    unfold findClose at h
    split at h
    · injection h with h1
      injection h1 with h2 h3
      rw [← h3]
      simp only [List.length_drop]
      simp
      omega
    · split at h
      · rename_i blk' r' heq
        injection h with h1
        injection h1 with h2 h3
        subst h3
        have := ih _ _ heq
        simp
        omega
      · exact absurd h (by simp)

/-- Any two sufficient fuels give the same variable scan. -/
theorem scanVarsF_fuel_irrel (ctx : TemplateContext) :
    ∀ (fuel fuel' : Nat) (s : List Char), s.length ≤ fuel → s.length ≤ fuel' →
      scanVarsF ctx fuel s = scanVarsF ctx fuel' s := by
  intro fuel
  induction fuel with
  | zero =>
    intro fuel' s h h'
    have : s = [] := List.length_eq_zero.mp (Nat.le_zero.mp h)
    subst this
    cases fuel' <;> rfl
  | succ f ih =>
    intro fuel' s h h'
    cases s with
    | nil => cases fuel' <;> rfl
    | cons c t =>
      cases fuel' with
      | zero => simp at h'
      | succ f' =>
        show scanVarsF ctx (f + 1) (c :: t) = scanVarsF ctx (f' + 1) (c :: t)
        rw [scanVarsF, scanVarsF]
        cases hp : parseVar (c :: t) with
        | none =>
          have ht : t.length ≤ f := by simp at h; omega
          have ht' : t.length ≤ f' := by simp at h'; omega
          simp only [ih f' t ht ht']
        | some wr =>
          obtain ⟨w, r⟩ := wr
          have hr := parseVar_length _ _ _ hp
          have hrf : r.length ≤ f := by simp at h hr; omega
          have hrf' : r.length ≤ f' := by simp at h' hr; omega
          simp only [ih f' r hrf hrf']

/-- Any two sufficient fuels give the same conditional scan. -/
theorem scanCondF_fuel_irrel (ctx : TemplateContext) :
    ∀ (fuel fuel' : Nat) (s : List Char), s.length ≤ fuel → s.length ≤ fuel' →
      scanCondF ctx fuel s = scanCondF ctx fuel' s := by
  intro fuel
  induction fuel with
  | zero =>
    intro fuel' s h h'
    have : s = [] := List.length_eq_zero.mp (Nat.le_zero.mp h)
    subst this
    cases fuel' <;> rfl
  | succ f ih =>
    intro fuel' s h h'
    cases s with
    | nil => cases fuel' <;> rfl
    | cons c t =>
      cases fuel' with
      | zero => simp at h'
      | succ f' =>
        show scanCondF ctx (f + 1) (c :: t) = scanCondF ctx (f' + 1) (c :: t)
        rw [scanCondF, scanCondF]
        cases hp : parseHeader (c :: t) with
        | none =>
          have ht : t.length ≤ f := by simp at h; omega
          have ht' : t.length ≤ f' := by simp at h'; omega
          simp only [ih f' t ht ht']
        | some wa =>
          obtain ⟨w, after⟩ := wa
          cases hf : findClose after with
          | none =>
            have ht : t.length ≤ f := by simp at h; omega
            have ht' : t.length ≤ f' := by simp at h'; omega
            simp only [hf, ih f' t ht ht']
          | some br =>
            obtain ⟨blk, r⟩ := br
            have h1 := parseHeader_length _ _ _ hp
            have h2 := findClose_length _ _ _ hf
            have hrf : r.length ≤ f := by simp at h h1 h2; omega
            have hrf' : r.length ≤ f' := by simp at h' h1 h2; omega
            simp only [hf, ih f' r hrf hrf']

/-! ## Claims -/
/-- Claim C3.  `mergePackageJson` keeps every top-level key of either input,
with the specific (template) side winning on collision for ordinary keys,
and always materialises `scripts`, `dependencies` and `devDependencies` as
maps equal to the union of the two sides' corresponding maps (an absent or
non-object side contributing nothing, the specific side winning on key
collision).  Instantiating both inputs with the empty object shows the three
keys are then present as empty maps. -/
theorem mergePackageJson_spec (basePackage templatePackage : PkgObj) :
    (∀ k, k ≠ "scripts" → k ≠ "dependencies" → k ≠ "devDependencies" →
      mergePackageJson basePackage templatePackage k
        = (templatePackage k <|> basePackage k))
    ∧ (∀ k, mergePackageJson basePackage templatePackage k = none →
        basePackage k = none ∧ templatePackage k = none)
    ∧ (∃ m, mergePackageJson basePackage templatePackage "scripts"
          = some (JVal.smap m)
        ∧ ∀ s, m s = (asStrMap (templatePackage "scripts") s
            <|> asStrMap (basePackage "scripts") s))
    ∧ (∃ m, mergePackageJson basePackage templatePackage "dependencies"
          = some (JVal.smap m)
        ∧ ∀ s, m s = (asStrMap (templatePackage "dependencies") s
            <|> asStrMap (basePackage "dependencies") s))
    ∧ (∃ m, mergePackageJson basePackage templatePackage "devDependencies"
          = some (JVal.smap m)
        ∧ ∀ s, m s = (asStrMap (templatePackage "devDependencies") s
            <|> asStrMap (basePackage "devDependencies") s)) := by
  refine ⟨?_, ?_, ?_, ?_, ?_⟩
  · intro k h1 h2 h3
    simp [mergePackageJson, h1, h2, h3]
  · intro k h
    by_cases h1 : k = "scripts"
    · simp [mergePackageJson, h1] at h
    · by_cases h2 : k = "dependencies"
      · simp [mergePackageJson, h1, h2] at h
      · by_cases h3 : k = "devDependencies"
        · simp [mergePackageJson, h1, h2, h3] at h
        · simp only [mergePackageJson, h1, h2, h3, if_false] at h
          rcases htk : templatePackage k with _ | v
          · rw [htk] at h
            exact ⟨by simpa using h, rfl⟩
          · rw [htk] at h; simp at h
  · refine ⟨fun s => (asStrMap (templatePackage "scripts") s
        <|> asStrMap (basePackage "scripts") s), ?_, fun s => rfl⟩
    simp [mergePackageJson]
  · refine ⟨mergeDependencies (asStrMap (basePackage "dependencies"))
        (asStrMap (templatePackage "dependencies")), ?_, fun s => rfl⟩
    simp [mergePackageJson]
  · refine ⟨mergeDependencies (asStrMap (basePackage "devDependencies"))
        (asStrMap (templatePackage "devDependencies")), ?_, fun s => rfl⟩
    simp [mergePackageJson]

/-- Witness for C3: both inputs empty objects — the three special keys are
present as empty maps, and an ordinary key of either side survives with the
specific side winning. -/
theorem mergePackageJson_spec_witness :
    (∃ m, mergePackageJson (fun _ => none) (fun _ => none) "scripts"
        = some (JVal.smap m) ∧ m "dev" = none)
    ∧ mergePackageJson (fun _ => none) (fun _ => none) "dependencies"
        = some (JVal.smap (fun _ => none))
    ∧ mergePackageJson
        (fun k => if k = "version" then some (JVal.prim true 0) else none)
        (fun k => if k = "version" then some (JVal.prim true 1) else none)
        "version" = some (JVal.prim true 1) := by
  obtain ⟨hord, hkeys, ⟨ms, hs, hsl⟩, ⟨md, hd, hdl⟩, hdev⟩ :=
    mergePackageJson_spec (fun _ => none) (fun _ => none)
  refine ⟨⟨ms, hs, by rw [hsl]; rfl⟩, ?_, ?_⟩
  · rw [hd]
    have : md = fun _ => none := by
      funext s; rw [hdl]; rfl
    rw [this]
  · have h := (mergePackageJson_spec
      (fun k => if k = "version" then some (JVal.prim true 0) else none)
      (fun k => if k = "version" then some (JVal.prim true 1) else none)).1
      "version" (by decide) (by decide) (by decide)
    rw [h]
    rfl

/-- Claim C5.  `renderWithInheritance` with no base path — or with a base path
that does not exist as a readable location — behaves exactly as a plain
`render` of the template path.  (The source also treats the falsy empty
string like `undefined`.) -/
theorem renderWithInheritance_fallback (fsys : FileSystem)
    (parseJson : String → Option PkgObj) (stringifyJson : PkgObj → String)
    (templatePath : String) (context : TemplateContext) :
    renderWithInheritance fsys parseJson stringifyJson templatePath none context
      = render fsys templatePath context
    ∧ ∀ bp, fsys.pathExists bp = false →
        renderWithInheritance fsys parseJson stringifyJson templatePath
          (some bp) context = render fsys templatePath context := by
  constructor
  · rfl
  · intro bp hbp
    by_cases hempty : bp = ""
    · simp [renderWithInheritance, hempty]
    · simp [renderWithInheritance, hempty, hbp]

/-- Witness for C5 at a concrete file system, template and context. -/
theorem renderWithInheritance_fallback_witness :
    renderWithInheritance
      ⟨fun _ => false, fun p => if p = "t" then [("a.txt", "hello \x7b\x7bx\x7d\x7d")] else []⟩
      (fun _ => none) (fun _ => "") "t" (some "missing") (fun _ => none)
      = render
        ⟨fun _ => false, fun p => if p = "t" then [("a.txt", "hello \x7b\x7bx\x7d\x7d")] else []⟩
        "t" (fun _ => none) :=
  (renderWithInheritance_fallback
    ⟨fun _ => false, fun p => if p = "t" then [("a.txt", "hello \x7b\x7bx\x7d\x7d")] else []⟩
    (fun _ => none) (fun _ => "") "t" (fun _ => none)).2 "missing" rfl

/-- Claim C7.  `getWithBase`: unknown ids give `undefined`; a descriptor with
no `extends`, or whose `extends` names an unknown id, is returned unchanged
(no exception); otherwise the result concatenates the base's dependency and
devDependency lists in front of the specific one's, unions the scripts with
the specific side winning, and keeps every other field of the specific
descriptor. -/
theorem getWithBase_spec (templates : TemplateRegistry) (id : String) :
    (templates id = none → getWithBase templates id = none)
    ∧ (∀ t, templates id = some t → t.extendsBase = none →
        getWithBase templates id = some t)
    ∧ (∀ t e, templates id = some t → t.extendsBase = some e →
        templates e = none → getWithBase templates id = some t)
    ∧ (∀ t e b, templates id = some t → t.extendsBase = some e →
        templates e = some b →
        ∃ t', getWithBase templates id = some t'
          ∧ t'.dependencies = b.dependencies ++ t.dependencies
          ∧ t'.devDependencies = b.devDependencies ++ t.devDependencies
          ∧ t'.scripts ≠ none
          ∧ (∀ k, scriptsOrEmpty t' k
              = (scriptsOrEmpty t k <|> scriptsOrEmpty b k))
          ∧ t'.id = t.id ∧ t'.name = t.name ∧ t'.description = t.description
          ∧ t'.files = t.files ∧ t'.extendsBase = t.extendsBase) := by
  refine ⟨?_, ?_, ?_, ?_⟩
  · intro h; simp [getWithBase, h]
  · intro t h1 h2; simp [getWithBase, h1, h2]
  · intro t e h1 h2 h3; simp [getWithBase, h1, h2, h3]
  · intro t e b h1 h2 h3
    refine ⟨{ t with
        dependencies := b.dependencies ++ t.dependencies
        devDependencies := b.devDependencies ++ t.devDependencies
        scripts := some (fun k => scriptsOrEmpty t k <|> scriptsOrEmpty b k) },
      ?_, rfl, rfl, by simp, fun k => rfl, rfl, rfl, rfl, rfl, rfl⟩
    simp [getWithBase, h1, h2, h3]

/-- Witness for C7: a concrete two-template registry exercising the merge
case, plus the soft-failure cases. -/
theorem getWithBase_spec_witness :
    (getWithBase (fun _ => none) "vanilla" = none)
    ∧ ((getWithBase
        (fun i =>
          if i = "base" then
            some ⟨"base", "Base", "", "bfiles", ["dep-b@1"], ["web-ext@8"],
              some (fun k => if k = "dev" then some "b-dev" else none), none⟩
          else if i = "react" then
            some ⟨"react", "React", "", "rfiles", ["react@19"], ["vite@7"],
              some (fun k => if k = "build" then some "vite build" else none),
              some "base"⟩
          else none) "react").map
          (fun t => (t.dependencies, t.devDependencies))
        = some (["dep-b@1", "react@19"], ["web-ext@8", "vite@7"])) := by
  constructor
  · exact (getWithBase_spec (fun _ => none) "vanilla").1 rfl
  · obtain ⟨t', ht', hdep, hdev, -, -, -, -, -, -, -⟩ :=
      (getWithBase_spec
        (fun i =>
          if i = "base" then
            some ⟨"base", "Base", "", "bfiles", ["dep-b@1"], ["web-ext@8"],
              some (fun k => if k = "dev" then some "b-dev" else none), none⟩
          else if i = "react" then
            some ⟨"react", "React", "", "rfiles", ["react@19"], ["vite@7"],
              some (fun k => if k = "build" then some "vite build" else none),
              some "base"⟩
          else none) "react").2.2.2
        ⟨"react", "React", "", "rfiles", ["react@19"], ["vite@7"],
          some (fun k => if k = "build" then some "vite build" else none),
          some "base"⟩
        "base"
        ⟨"base", "Base", "", "bfiles", ["dep-b@1"], ["web-ext@8"],
          some (fun k => if k = "dev" then some "b-dev" else none), none⟩
        rfl rfl rfl
    rw [ht']
    simp only [Option.map_some']
    rw [hdep, hdev]
    rfl

/-- Claim C10.  `getWithBase` resolves exactly one level of the `extends`
chain: even when the base descriptor itself has an `extends` pointer, the
result is computed from the specific descriptor and its immediate base only
(any registry agreeing on those two ids gives the same answer), and the
result still carries the specific descriptor's own `extends` field. -/
theorem getWithBase_one_level (templates : TemplateRegistry) (id : String)
    (t b : Template) (e e2 : String)
    (h1 : templates id = some t) (h2 : t.extendsBase = some e)
    (h3 : templates e = some b) (h4 : b.extendsBase = some e2) :
    ∃ t', getWithBase templates id = some t'
      ∧ t'.dependencies = b.dependencies ++ t.dependencies
      ∧ t'.devDependencies = b.devDependencies ++ t.devDependencies
      ∧ (∀ k, scriptsOrEmpty t' k = (scriptsOrEmpty t k <|> scriptsOrEmpty b k))
      ∧ t'.extendsBase = some e
      ∧ ∀ templates' : TemplateRegistry, templates' id = some t →
          templates' e = some b →
          getWithBase templates' id = getWithBase templates id := by
  refine ⟨{ t with
      dependencies := b.dependencies ++ t.dependencies
      devDependencies := b.devDependencies ++ t.devDependencies
      scripts := some (fun k => scriptsOrEmpty t k <|> scriptsOrEmpty b k) },
    ?_, rfl, rfl, fun k => rfl, by simpa using h2, ?_⟩
  · simp [getWithBase, h1, h2, h3]
  · intro templates' h1' h3'
    simp [getWithBase, h1, h2, h3, h1', h3']

/-- Witness for C10: a three-level chain `child → mid → root`; the
grandparent's dependencies do not appear in the merged result and the
child's `extends` pointer survives. -/
theorem getWithBase_one_level_witness :
    (getWithBase
      (fun i =>
        if i = "root" then
          some ⟨"root", "", "", "", ["g-dep@1"], ["g-dev@1"], none, none⟩
        else if i = "mid" then
          some ⟨"mid", "", "", "", ["m-dep@1"], ["m-dev@1"], none, some "root"⟩
        else if i = "child" then
          some ⟨"child", "", "", "", ["c-dep@1"], ["c-dev@1"], none, some "mid"⟩
        else none) "child").map
      (fun t => (t.dependencies, t.devDependencies, t.extendsBase))
      = some (["m-dep@1", "c-dep@1"], ["m-dev@1", "c-dev@1"], some "mid") := by
  obtain ⟨t', ht', hdep, hdev, -, hext, -⟩ :=
    getWithBase_one_level
      (fun i =>
        if i = "root" then
          some ⟨"root", "", "", "", ["g-dep@1"], ["g-dev@1"], none, none⟩
        else if i = "mid" then
          some ⟨"mid", "", "", "", ["m-dep@1"], ["m-dev@1"], none, some "root"⟩
        else if i = "child" then
          some ⟨"child", "", "", "", ["c-dep@1"], ["c-dev@1"], none, some "mid"⟩
        else none) "child"
      ⟨"child", "", "", "", ["c-dep@1"], ["c-dev@1"], none, some "mid"⟩
      ⟨"mid", "", "", "", ["m-dep@1"], ["m-dev@1"], none, some "root"⟩
      "mid" "root" rfl rfl rfl rfl
  rw [ht']
  simp only [Option.map_some']
  rw [hdep, hdev, hext]
  rfl

/-- Claim C2, amended: the README test is case-sensitive, and the
placeholder replacement is JavaScript string `replace`, whose replacement
string undergoes ECMAScript `GetSubstitution` expansion.  When a base
partial's target path has a corresponding template file and the target
filename contains the substring `"README"` (exact case), the merge replaces
the first occurrence of the literal placeholder in the template content with
the `GetSubstitution`-expanded base partial's content — which is the base
content verbatim whenever it contains no dollar sign (second conjunct) — or
appends the base content after a single newline when the placeholder is
absent. -/
theorem mergePartialFiles_readme_branch (baseFile : TemplateFile)
    (templateFiles : List TemplateFile) (templateFile : TemplateFile)
    (hmarker : includesS baseFile.path ".partial." = true)
    (hget : jsMapGet
        (templateFiles.foldl (fun m f => jsMapSet m f.path f) [])
        (replaceS baseFile.path ".partial." ".") = some templateFile)
    (hreadme : includesS (replaceS baseFile.path ".partial." ".") "README" = true) :
    (mergePartialFiles [baseFile] templateFiles
      = ⟨replaceS baseFile.path ".partial." ".",
          (if includesS templateFile.content placeholder then
            replaceS templateFile.content placeholder baseFile.content
          else templateFile.content ++ "\n" ++ baseFile.content),
          templateFile.encoding⟩
        :: jsMapValues (jsMapDelete
            (templateFiles.foldl (fun m f => jsMapSet m f.path f) [])
            (replaceS baseFile.path ".partial." ".")))
    ∧ (includesS templateFile.content placeholder = true →
        '$' ∉ baseFile.content.toList →
        ∃ a b, templateFile.content.toList = a ++ placeholder.toList ++ b
          ∧ (replaceS templateFile.content placeholder baseFile.content).toList
            = a ++ baseFile.content.toList ++ b) := by
  constructor
  · unfold mergePartialFiles
    simp only [mergePartialLoop, hmarker, if_true, hget, hreadme]
    rfl
  · intro hph hnd
    obtain ⟨a, b, hab, hrf⟩ := replaceFirst_decomp placeholder.toList
      baseFile.content.toList templateFile.content.toList (by decide) hph
    refine ⟨a, b, hab, ?_⟩
    show replaceFirst placeholder.toList baseFile.content.toList
      templateFile.content.toList = _
    rw [hrf, getSubstitution_no_dollar _ _ _ _ hnd]

/-- Witness for C2: an uppercase `README` target with the placeholder
present gets the substitution, one without it gets the newline append. -/
theorem mergePartialFiles_readme_branch_witness :
    mergePartialFiles [⟨"README.partial.md", "DEV", Encoding.utf8⟩]
        [⟨"README.md", "A<!-- DEV_WORKFLOW_PARTIAL_PLACEHOLDER -->Z", Encoding.utf8⟩]
      = [⟨"README.md", "ADEVZ", Encoding.utf8⟩]
    ∧ mergePartialFiles [⟨"README.partial.md", "DEV", Encoding.utf8⟩]
        [⟨"README.md", "# Title", Encoding.utf8⟩]
      = [⟨"README.md", "# Title\nDEV", Encoding.utf8⟩] := by
  constructor
  · rw [(mergePartialFiles_readme_branch
      ⟨"README.partial.md", "DEV", Encoding.utf8⟩
      [⟨"README.md", "A<!-- DEV_WORKFLOW_PARTIAL_PLACEHOLDER -->Z", Encoding.utf8⟩]
      ⟨"README.md", "A<!-- DEV_WORKFLOW_PARTIAL_PLACEHOLDER -->Z", Encoding.utf8⟩
      (by decide) (by decide) (by decide)).1]
    decide
  · rw [(mergePartialFiles_readme_branch
      ⟨"README.partial.md", "DEV", Encoding.utf8⟩
      [⟨"README.md", "# Title", Encoding.utf8⟩]
      ⟨"README.md", "# Title", Encoding.utf8⟩
      (by decide) (by decide) (by decide)).1]
    decide

/-- Counterexample for C2 as frozen: the source tests
`targetPath.includes('README')` *case-sensitively*, so a lowercase
`readme.md` target takes the append branch even though the placeholder is
present in the template content. -/
theorem mergePartialFiles_readme_case_counterexample :
    mergePartialFiles [⟨"readme.partial.md", "DEV", Encoding.utf8⟩]
        [⟨"readme.md", "A<!-- DEV_WORKFLOW_PARTIAL_PLACEHOLDER -->Z", Encoding.utf8⟩]
      = [⟨"readme.md", "A<!-- DEV_WORKFLOW_PARTIAL_PLACEHOLDER -->Z\nDEV",
          Encoding.utf8⟩]
    ∧ includesS "A<!-- DEV_WORKFLOW_PARTIAL_PLACEHOLDER -->Z" placeholder = true
    ∧ ("A<!-- DEV_WORKFLOW_PARTIAL_PLACEHOLDER -->Z\nDEV" : String) ≠ "ADEVZ" := by
  decide

/-- Claim C8, amended: no binary passthrough exists.  `render` emits *every*
file — icons included — with the `'utf-8'` encoding tag, and passes every
file's content and path through `renderFile`; no file is exempted from
substitution and the `'binary'` tag is never produced. -/
theorem render_always_utf8 (fsys : FileSystem) (templatePath : String)
    (context : TemplateContext) :
    ∀ f ∈ render fsys templatePath context,
      f.encoding = Encoding.utf8
      ∧ ∃ e ∈ fsys.listing templatePath,
          f.path = renderFile e.1 context ∧ f.content = renderFile e.2 context := by
  intro f hf
  unfold render at hf
  obtain ⟨e, he, rfl⟩ := List.mem_map.mp hf
  exact ⟨rfl, e, he, rfl, rfl⟩

/-- Witness for C8 at a concrete listing containing an icon file. -/
theorem render_always_utf8_witness :
    (TemplateFile.mk "icons/icon16.png" "PNGDATA" Encoding.utf8).encoding
      = Encoding.utf8 :=
  (render_always_utf8 ⟨fun _ => true, fun _ => [("icons/icon16.png", "PNGDATA")]⟩
    "t" (fun _ => none)
    (TemplateFile.mk "icons/icon16.png" "PNGDATA" Encoding.utf8) (by decide)).1

/-- Counterexample for C8 as frozen: an icon file is emitted with the
`'utf-8'` tag and its content *is* run through variable substitution
(`{{a}}` in the raw bytes is rewritten). -/
theorem render_binary_counterexample :
    render ⟨fun _ => true, fun p => if p = "t" then [("icon.png", "\x7b\x7ba\x7d\x7d")] else []⟩
        "t" (fun k => if k = "a" then some "X" else none)
      = [⟨"icon.png", "X", Encoding.utf8⟩]
    ∧ Encoding.utf8 ≠ Encoding.binary := by
  constructor
  · rfl
  · decide

/-- Counterexample for C1 as frozen: `mergePartialFiles` leaks
partial-marked paths — a base path whose marker occurs twice (overlapping)
is renamed by removing only the first occurrence, and a template file whose
own path carries the marker is passed through untouched. -/
theorem mergePartialFiles_leak_counterexample :
    mergePartialFiles [⟨"x.partial.partial.md", "B", Encoding.utf8⟩]
        [⟨"b.partial.txt", "T", Encoding.utf8⟩]
      = [⟨"x.partial.md", "B", Encoding.utf8⟩,
         ⟨"b.partial.txt", "T", Encoding.utf8⟩]
    ∧ includesS "x.partial.md" ".partial." = true
    ∧ includesS "b.partial.txt" ".partial." = true := by
  decide

/-! ### Map and loop lemmas for the partial-merge invariant -/
theorem mem_jsMapSet {V : Type} (m : List (String × V)) (k : String) (v : V)
    (p : String × V) (h : p ∈ jsMapSet m k v) : p = (k, v) ∨ p ∈ m := by
  unfold jsMapSet at h
  split at h
  · obtain ⟨q, hq, hpq⟩ := List.mem_map.mp h
    by_cases hk : q.1 == k
    · left; rw [if_pos hk] at hpq; exact hpq.symm
    · right; rw [if_neg hk] at hpq; rw [← hpq]; exact hq
  · rcases List.mem_append.mp h with h | h
    · right; exact h
    · left; simpa using h

theorem mem_buildMap (files : List TemplateFile) :
    ∀ (m0 : List (String × TemplateFile)) (p : String × TemplateFile),
      p ∈ files.foldl (fun m f => jsMapSet m f.path f) m0 →
      (∃ f ∈ files, p = (f.path, f)) ∨ p ∈ m0 := by
  induction files with
  | nil => intro m0 p h; right; simpa using h
  | cons f rest ih =>
    intro m0 p h
    rw [List.foldl_cons] at h
    rcases ih (jsMapSet m0 f.path f) p h with h' | h'
    · obtain ⟨g, hg, hpg⟩ := h'
      exact Or.inl ⟨g, List.mem_cons_of_mem _ hg, hpg⟩
    · rcases mem_jsMapSet m0 f.path f p h' with h'' | h''
      · exact Or.inl ⟨f, List.mem_cons_self _ _, h''⟩
      · exact Or.inr h''

theorem mem_jsMapDelete {V : Type} (m : List (String × V)) (k : String)
    (p : String × V) (h : p ∈ jsMapDelete m k) : p ∈ m :=
  List.mem_of_mem_filter h

/-- The partial-merge loop: every emitted record has a marker-free path
(provided every base path carries the marker at most once), and the
remaining template map only shrinks. -/
theorem mergePartialLoop_spec (baseFiles : List TemplateFile) :
    ∀ m : List (String × TemplateFile),
      (∀ f ∈ baseFiles, countOcc partialMarker f.path.toList ≤ 1) →
      (∀ g ∈ (mergePartialLoop baseFiles m).1,
          hasSub partialMarker g.path.toList = false)
      ∧ (∀ p ∈ (mergePartialLoop baseFiles m).2, p ∈ m) := by
  induction baseFiles with
  | nil =>
    intro m hocc
    constructor
    · intro g hg; simp [mergePartialLoop] at hg
    · intro p hp; simpa [mergePartialLoop] using hp
  | cons bf rest ih =>
    intro m hocc
    have hbf : countOcc partialMarker bf.path.toList ≤ 1 :=
      hocc bf (List.mem_cons_self _ _)
    have hrest : ∀ f ∈ rest, countOcc partialMarker f.path.toList ≤ 1 :=
      fun f hf => hocc f (List.mem_cons_of_mem _ hf)
    by_cases hmark : includesS bf.path ".partial." = true
    · cases hget : jsMapGet m (replaceS bf.path ".partial." ".") with
      | some tf =>
        have hstep : mergePartialLoop (bf :: rest) m
            = (⟨replaceS bf.path ".partial." ".",
                (if includesS (replaceS bf.path ".partial." ".") "README" then
                  if includesS tf.content placeholder then
                    replaceS tf.content placeholder bf.content
                  else tf.content ++ "\n" ++ bf.content
                else tf.content ++ "\n" ++ bf.content),
                tf.encoding⟩
              :: (mergePartialLoop rest
                  (jsMapDelete m (replaceS bf.path ".partial." "."))).1,
              (mergePartialLoop rest
                  (jsMapDelete m (replaceS bf.path ".partial." "."))).2) := by
          rw [mergePartialLoop]
          simp only [hmark, if_true, hget]
        obtain ⟨ihA, ihB⟩ := ih (jsMapDelete m (replaceS bf.path ".partial." ".")) hrest
        rw [hstep]
        constructor
        · intro g hg
          rcases List.mem_cons.mp hg with hg | hg
          · rw [hg]
            exact marker_gone_of_countOcc_le_one bf.path.toList hbf
          · exact ihA g hg
        · intro p hp
          exact mem_jsMapDelete _ _ _ (ihB p hp)
      | none =>
        have hstep : mergePartialLoop (bf :: rest) m
            = (⟨replaceS bf.path ".partial." ".", bf.content, bf.encoding⟩
                :: (mergePartialLoop rest m).1,
              (mergePartialLoop rest m).2) := by
          rw [mergePartialLoop]
          simp only [hmark, if_true, hget]
        obtain ⟨ihA, ihB⟩ := ih m hrest
        rw [hstep]
        constructor
        · intro g hg
          rcases List.mem_cons.mp hg with hg | hg
          · rw [hg]
            exact marker_gone_of_countOcc_le_one bf.path.toList hbf
          · exact ihA g hg
        · exact ihB
    · have hstep : mergePartialLoop (bf :: rest) m
          = (bf :: (mergePartialLoop rest m).1, (mergePartialLoop rest m).2) := by
        rw [mergePartialLoop]
        simp only [hmark, if_false, Bool.false_eq_true]
      obtain ⟨ihA, ihB⟩ := ih m hrest
      rw [hstep]
      constructor
      · intro g hg
        rcases List.mem_cons.mp hg with hg | hg
        · rw [hg]
          simpa [includesS] using hmark
        · exact ihA g hg
      · exact ihB

/-- Claim C1, amended.  `mergePartialFiles` emits no marker-bearing path
provided no template file's own path carries the partial marker and every
base file path contains the marker at most once; the counterexample above
shows both provisos are necessary. -/
theorem mergePartialFiles_no_leak (baseFiles templateFiles : List TemplateFile)
    (htmpl : ∀ f ∈ templateFiles, includesS f.path ".partial." = false)
    (hbase : ∀ f ∈ baseFiles, countOcc partialMarker f.path.toList ≤ 1) :
    ∀ g ∈ mergePartialFiles baseFiles templateFiles,
      includesS g.path ".partial." = false := by
  intro g hg
  unfold mergePartialFiles at hg
  obtain ⟨hA, hB⟩ := mergePartialLoop_spec baseFiles
    (templateFiles.foldl (fun m f => jsMapSet m f.path f) []) hbase
  rcases List.mem_append.mp hg with hg | hg
  · exact hA g hg
  · obtain ⟨p, hp, hpg⟩ := List.mem_map.mp hg
    have hpm := hB p hp
    rcases mem_buildMap templateFiles [] p hpm with h' | h'
    · obtain ⟨f, hf, rfl⟩ := h'
      rw [← hpg]
      exact htmpl f hf
    · simp at h'

/-- Witness for C1: a base tree with single-marker partials and a clean
template tree leaves no marker in any output path. -/
theorem mergePartialFiles_no_leak_witness :
    includesS (TemplateFile.mk ".gitignore.template" "Y\nX" Encoding.utf8).path
      ".partial." = false :=
  mergePartialFiles_no_leak
    [⟨".gitignore.partial.template", "X", Encoding.utf8⟩,
     ⟨"README.partial.md", "D", Encoding.utf8⟩]
    [⟨".gitignore.template", "Y", Encoding.utf8⟩]
    (by decide) (by decide)
    (TemplateFile.mk ".gitignore.template" "Y\nX" Encoding.utf8) (by decide)

/-! ### Scanner lemmas: token matching and preservation -/
theorem takeWhile_append_cons (p : Char → Bool) (w : List Char) (c : Char)
    (x : List Char) (hw : ∀ a ∈ w, p a = true) (hc : p c = false) :
    (w ++ c :: x).takeWhile p = w := by
  induction w with
  | nil => simp [List.takeWhile, hc]
  | cons a w ih =>
    have ha : p a = true := hw a (List.mem_cons_self _ _)
    have hw' : ∀ a ∈ w, p a = true := fun a h => hw a (List.mem_cons_of_mem _ h)
    simp [List.takeWhile, ha, ih hw']

/-- `parseVar` succeeds on a well-formed token. -/
theorem parseVar_token (w rest : List Char) (hw : w ≠ [])
    (hword : ∀ a ∈ w, isWordChar a = true) :
    parseVar ('{' :: '{' :: (w ++ '}' :: '}' :: rest)) = some (w, rest) := by
  unfold parseVar
  have hpfx : "\x7b\x7b".toList.isPrefixOf ('{' :: '{' :: (w ++ '}' :: '}' :: rest)) = true := by
    rw [ List.isPrefixOf_iff_prefix]
    exact ⟨w ++ '}' :: '}' :: rest, rfl⟩
  rw [if_pos hpfx]
  have hdrop2 : ('{' :: '{' :: (w ++ '}' :: '}' :: rest)).drop 2
      = w ++ '}' :: '}' :: rest := rfl
  simp only [hdrop2]
  have htw : (w ++ '}' :: '}' :: rest).takeWhile isWordChar = w :=
    takeWhile_append_cons _ _ _ _ hword (by decide)
  rw [htw]
  rw [if_neg (by simpa [List.isEmpty_iff] using hw)]
  have hdropw : (w ++ '}' :: '}' :: rest).drop w.length = '}' :: '}' :: rest :=
    List.drop_left _ _
  rw [hdropw]
  have hcl : "\x7d\x7d".toList.isPrefixOf ('}' :: '}' :: rest) = true := by
    rw [ List.isPrefixOf_iff_prefix]
    exact ⟨rest, rfl⟩
  rw [if_pos hcl]
  rfl

/-- A successful `parseVar` came from a well-formed token at the head. -/
theorem parseVar_sound (s w r : List Char) (h : parseVar s = some (w, r)) :
    s = '{' :: '{' :: (w ++ '}' :: '}' :: r)
      ∧ w ≠ [] ∧ ∀ a ∈ w, isWordChar a = true := by
  unfold parseVar at h
  split at h
  case isTrue hpfx =>
    simp only at h
    split at h
    case isTrue => exact absurd h (by simp)
    case isFalse hwne =>
      split at h
      case isTrue hclose =>
        injection h with h1
        injection h1 with hw2 hr2
        obtain ⟨u, hu⟩ := List.isPrefixOf_iff_prefix.mp hpfx
        have hu2 : List.drop 2 s = u := by rw [← hu]; rfl
        rw [hu2] at hw2 hr2 hwne hclose
        have hsplit : u = w ++ u.dropWhile isWordChar := by
          conv_lhs => rw [← List.takeWhile_append_dropWhile (p := isWordChar) (l := u)]
          rw [hw2]
        have hdw : List.drop (List.takeWhile isWordChar u).length u
            = u.dropWhile isWordChar := by
          rw [hw2]
          conv_lhs => rw [hsplit]
          exact List.drop_left _ _
        rw [hdw] at hr2 hclose
        obtain ⟨v, hv⟩ := List.isPrefixOf_iff_prefix.mp hclose
        have hword : ∀ a ∈ w, isWordChar a = true := by
          intro a ha
          rw [← hw2] at ha
          exact List.mem_takeWhile_imp ha
        have hwne' : w ≠ [] := by
          rw [hw2] at hwne
          simpa [List.isEmpty_iff] using hwne
        have hdv : u.dropWhile isWordChar = '}' :: '}' :: v := by
          rw [← hv]; rfl
        rw [hdv] at hr2
        have hrv : r = v := by
          rw [← hr2]; rfl
        refine ⟨?_, hwne', hword⟩
        rw [← hu]
        show ('{' :: '{' :: []) ++ u = '{' :: '{' :: (w ++ '}' :: '}' :: r)
        rw [hsplit, hdv, hrv]
        rfl
      case isFalse => exact absurd h (by simp)
  case isFalse => exact absurd h (by simp)

/-- A successful `parseHeader` means the string contains a `'#'`. -/
theorem parseHeader_hash (s : List Char) (x : List Char × List Char)
    (h : parseHeader s = some x) : '#' ∈ s := by
  unfold parseHeader at h
  split at h
  case isTrue hpfx =>
    obtain ⟨u, hu⟩ := List.isPrefixOf_iff_prefix.mp hpfx
    rw [← hu]
    have : '#' ∈ "\x7b\x7b#if".toList := by decide
    exact List.mem_append_left _ this
  case isFalse => exact absurd h (by simp)

/-- The conditional pass copies a `'#'`-free string verbatim. -/
theorem scanCondF_no_hash (ctx : TemplateContext) :
    ∀ (fuel : Nat) (s : List Char), s.length ≤ fuel → '#' ∉ s →
      scanCondF ctx fuel s = s := by
  intro fuel
  induction fuel with
  | zero =>
    intro s h _
    have : s = [] := List.length_eq_zero.mp (Nat.le_zero.mp h)
    subst this; rfl
  | succ f ih =>
    intro s h hhash
    cases s with
    | nil => rfl
    | cons c t =>
      show scanCondF ctx (f + 1) (c :: t) = c :: t
      rw [scanCondF]
      cases hp : parseHeader (c :: t) with
      | none =>
        have ht : t.length ≤ f := by simp at h; omega
        have hhash' : '#' ∉ t := fun hc => hhash (List.mem_cons_of_mem _ hc)
        simp only [ih t ht hhash']
      | some wa => exact absurd (parseHeader_hash _ _ hp) hhash

/-- `processConditionals` is the identity on `'#'`-free content. -/
theorem processConditionals_no_hash (content : String) (context : TemplateContext)
    (h : '#' ∉ content.toList) : processConditionals content context = content := by
  unfold processConditionals scanCond
  rw [scanCondF_no_hash context _ _ le_rfl h]
  rfl

/-- Claim C9.  `renderFile` performs a single substitution pass: a context
value assigned to a token is copied into the output verbatim — even when it
itself contains `{{...}}` or `{{#if}}...{{/if}}` syntax — and is never
expanded further by the same call. -/
theorem renderFile_single_pass (context : TemplateContext) (name v post : String)
    (hne : name.toList ≠ [])
    (hword : ∀ a ∈ name.toList, isWordChar a = true)
    (hdef : context name = some v) :
    processVariables ("\x7b\x7b" ++ name ++ "\x7d\x7d" ++ post) context
      = v ++ processVariables post context
    ∧ renderFile ("\x7b\x7b" ++ name ++ "\x7d\x7d") context = v := by
  have hkey : ∀ rest : List Char,
      scanVars context ('{' :: '{' :: (name.toList ++ '}' :: '}' :: rest))
        = v.toList ++ scanVars context rest := by
    intro rest
    unfold scanVars
    have hlen : ('{' :: '{' :: (name.toList ++ '}' :: '}' :: rest)).length
        = ('{' :: (name.toList ++ '}' :: '}' :: rest)).length + 1 := by simp
    rw [hlen, scanVarsF]
    rw [parseVar_token name.toList rest hne hword]
    have hctx : context (String.mk name.toList) = some v := hdef
    simp only [hctx]
    congr 1
    apply scanVarsF_fuel_irrel
    · simp
      omega
    · exact le_rfl
  constructor
  · show String.mk (scanVars context ("\x7b\x7b" ++ name ++ "\x7d\x7d" ++ post).toList)
      = v ++ processVariables post context
    have hshape : ("\x7b\x7b" ++ name ++ "\x7d\x7d" ++ post).toList
        = '{' :: '{' :: (name.toList ++ '}' :: '}' :: post.toList) := by
      show "\x7b\x7b".toList ++ name.toList ++ "\x7d\x7d".toList ++ post.toList
        = '{' :: '{' :: (name.toList ++ '}' :: '}' :: post.toList)
      simp
    rw [hshape, hkey]
    rfl
  · have hnohash : '#' ∉ ("\x7b\x7b" ++ name ++ "\x7d\x7d").toList := by
      intro hmem
      have hmem' : '#' ∈ '{' :: '{' :: (name.toList ++ '}' :: '}' :: []) := by
        have hshape : ("\x7b\x7b" ++ name ++ "\x7d\x7d").toList
            = '{' :: '{' :: (name.toList ++ '}' :: '}' :: []) := by
          show "\x7b\x7b".toList ++ name.toList ++ "\x7d\x7d".toList
            = '{' :: '{' :: (name.toList ++ '}' :: '}' :: [])
          simp
        rwa [hshape] at hmem
      rcases List.mem_cons.mp hmem' with h | h
      · exact absurd h (by decide)
      rcases List.mem_cons.mp h with h | h
      · exact absurd h (by decide)
      rcases List.mem_append.mp h with h | h
      · have hcontra := hword _ h
        simp [isWordChar] at hcontra
      · exact absurd h (by decide)
    unfold renderFile
    rw [processConditionals_no_hash _ _ hnohash]
    show String.mk (scanVars context ("\x7b\x7b" ++ name ++ "\x7d\x7d").toList) = v
    have hshape : ("\x7b\x7b" ++ name ++ "\x7d\x7d").toList
        = '{' :: '{' :: (name.toList ++ '}' :: '}' :: []) := by
      show "\x7b\x7b".toList ++ name.toList ++ "\x7d\x7d".toList
        = '{' :: '{' :: (name.toList ++ '}' :: '}' :: [])
      simp
    rw [hshape, hkey]
    show String.mk (v.toList ++ ([] : List Char)) = v
    rw [List.append_nil]
    rfl

/-- Witness for C9: the value `{{b}}` assigned to `a` is copied verbatim,
not expanded, although `b` is defined in the same context. -/
theorem renderFile_single_pass_witness :
    renderFile "\x7b\x7ba\x7d\x7d"
      (fun k => if k = "a" then some "\x7b\x7bb\x7d\x7d" else
        if k = "b" then some "Z" else none) = "\x7b\x7bb\x7d\x7d" :=
  (renderFile_single_pass
    (fun k => if k = "a" then some "\x7b\x7bb\x7d\x7d" else
      if k = "b" then some "Z" else none)
    "a" "\x7b\x7bb\x7d\x7d" "" (by decide) (by decide) rfl).2

/-- The variable pass preserves every occurrence of an unresolved token:
tokens are emitted verbatim, resolved values are never rescanned, and no
match can overlap an occurrence of `{{k}}` except at its own position. -/
theorem scanVarsF_preserves (ctx : TemplateContext) (k : List Char)
    (hk : k ≠ []) (hkword : ∀ a ∈ k, isWordChar a = true)
    (habs : ctx (String.mk k) = none) :
    ∀ (fuel : Nat) (s : List Char), s.length ≤ fuel →
      hasSub ('{' :: '{' :: (k ++ ['}', '}'])) s = true →
      hasSub ('{' :: '{' :: (k ++ ['}', '}'])) (scanVarsF ctx fuel s) = true := by
  set tok : List Char := '{' :: '{' :: (k ++ ['}', '}']) with htok
  intro fuel
  induction fuel with
  | zero =>
    intro s hlen hocc
    have : s = [] := List.length_eq_zero.mp (Nat.le_zero.mp hlen)
    subst this
    simp [htok] at hocc
  | succ f ih =>
    intro s hlen hocc
    cases s with
    | nil => simp [htok] at hocc
    | cons c t =>
      show hasSub tok (scanVarsF ctx (f + 1) (c :: t)) = true
      rw [scanVarsF]
      cases hp : parseVar (c :: t) with
      | none =>
        -- no match here: the head character is copied
        rw [hasSub_cons, Bool.or_eq_true] at hocc
        rcases hocc with hpre | htail
        · -- a token occurrence at the head would have been a match
          obtain ⟨b', hb'⟩ := List.isPrefixOf_iff_prefix.mp hpre
          have hshape : c :: t = '{' :: '{' :: (k ++ '}' :: '}' :: b') := by
            rw [← hb', htok]
            simp
          have := parseVar_token k b' hk hkword
          rw [← hshape] at this
          rw [this] at hp
          exact absurd hp (by simp)
        · have ht : t.length ≤ f := by simp at hlen; omega
          rw [hasSub_cons, Bool.or_eq_true]
          exact Or.inr (ih t ht htail)
      | some wr =>
        obtain ⟨w, r⟩ := wr
        obtain ⟨hshape, hwne, hwword⟩ := parseVar_sound _ _ _ hp
        have hmt : c :: t = ('{' :: '{' :: (w ++ ['}', '}'])) ++ r := by
          rw [hshape]; simp
        obtain ⟨a, b, hab⟩ :=
          (hasSub_iff tok (c :: t) (by simp [htok])).mp hocc
        have hapre : a <+: c :: t := ⟨tok ++ b, by rw [hab]; simp⟩
        have hmtpre : ('{' :: '{' :: (w ++ ['}', '}'])) <+: c :: t := ⟨r, hmt.symm⟩
        have hr : r.length ≤ f := by
          have hlt := parseVar_length _ _ _ hp
          simp at hlen hlt
          omega
        rcases List.prefix_or_prefix_of_prefix hmtpre hapre with hcase | hcase
        · -- the whole match precedes the occurrence: it lies inside `r`
          obtain ⟨a', ha'⟩ := hcase
          have hra : r = a' ++ tok ++ b := by
            have h1 : ('{' :: '{' :: (w ++ ['}', '}'])) ++ r
                = ('{' :: '{' :: (w ++ ['}', '}'])) ++ (a' ++ tok ++ b) := by
              rw [← hmt, hab, ← ha']
              simp
            simpa using List.append_cancel_left h1
          exact hasSub_of_hasSub_suffix _ _ _
            (ih r hr (by rw [hra]; exact hasSub_of_append _ _ _))
        · -- the occurrence starts at or inside the match
          obtain ⟨d, hd⟩ := hcase
          have hdr : d ++ (tok ++ b) = d ++ (tok ++ b) := rfl
          have hdtok : d ++ r = tok ++ b := by
            have h1 : a ++ (d ++ r) = a ++ (tok ++ b) := by
              rw [← List.append_assoc, hd, ← hmt, hab]
              simp
            exact List.append_cancel_left h1
          cases hdc : d with
          | nil =>
            -- the occurrence lies just after the match: it is inside `r`
            rw [hdc] at hdtok
            rw [List.nil_append] at hdtok
            refine hasSub_of_hasSub_suffix _ _ _ (ih r hr ?_)
            rw [hdtok]
            have htb := hasSub_of_append tok [] b
            simpa using htb
          | cons e d' =>
            rw [hdc] at hdtok hd
            cases a with
            | nil =>
              -- the occurrence is exactly at the match: the parsed name is `k`
              rw [List.nil_append] at hd
              rw [hd] at hdtok
              have heq2 : (w ++ ['}', '}']) ++ r = (k ++ ['}', '}']) ++ b := by
                rw [htok] at hdtok
                simpa only [List.cons_append, List.cons.injEq, true_and]
                  using hdtok
              have hwk : w = k := by
                have htw1 : ((w ++ ['}', '}']) ++ r).takeWhile isWordChar = w := by
                  rw [List.append_assoc]
                  exact takeWhile_append_cons _ _ _ _ hwword (by decide)
                have htw2 : ((k ++ ['}', '}']) ++ b).takeWhile isWordChar = k := by
                  rw [List.append_assoc]
                  exact takeWhile_append_cons _ _ _ _ hkword (by decide)
                rw [← htw1, heq2, htw2]
              have habs' : ctx (String.mk w) = none := by rw [hwk]; exact habs
              simp only [habs']
              have hrepl : "\x7b\x7b".toList ++ w ++ "\x7d\x7d".toList = tok := by
                show ('{' :: '{' :: ([] : List Char)) ++ w ++ ('}' :: '}' :: []) = tok
                rw [hwk, htok]
                simp
              rw [hrepl]
              have htoksub := hasSub_of_append tok [] (scanVarsF ctx f r)
              simpa using htoksub
            | cons a1 a2 =>
              -- the occurrence starts strictly inside the match: impossible
              exfalso
              cases a2 with
              | nil =>
                -- one character in: the second token char meets the word run
                simp only [List.cons_append, List.nil_append,
                  List.cons.injEq] at hd
                obtain ⟨ha1, he2, hd'⟩ := hd
                obtain ⟨w0, wt, rfl⟩ : ∃ w0 wt, w = w0 :: wt := by
                  cases w with
                  | nil => exact absurd rfl hwne
                  | cons w0 wt => exact ⟨w0, wt, rfl⟩
                rw [htok, he2, hd'] at hdtok
                simp only [List.cons_append, List.cons.injEq] at hdtok
                have hw0 : w0 = '{' := hdtok.2.1
                have hcontra := hwword w0 (List.mem_cons_self _ _)
                rw [hw0] at hcontra
                simp [isWordChar] at hcontra
              | cons a2h a3 =>
                -- two or more characters in: a brace among word chars/braces
                have he : e = '{' := by
                  rw [htok] at hdtok
                  simp only [List.cons_append, List.cons.injEq] at hdtok
                  exact hdtok.1
                simp only [List.cons_append, List.cons.injEq] at hd
                obtain ⟨ha1, ha2, hd'⟩ := hd
                have hmem : e ∈ w ++ ['}', '}'] := by
                  rw [← hd']
                  exact List.mem_append_right _ (List.mem_cons_self _ _)
                rcases List.mem_append.mp hmem with hmem | hmem
                · have hcontra := hwword e hmem
                  rw [he] at hcontra
                  simp [isWordChar] at hcontra
                · rw [he] at hmem
                  simp at hmem

/-- Claim C4, amended.  The substitution pass preserves unresolved tokens:
for any context lacking key `k`, every content containing `{{k}}` still
contains `{{k}}` verbatim after `processVariables` (substitution never
throws and never deletes an unresolved token); the same holds for the whole
`renderFile` whenever the content is free of conditional syntax.  (The
counterexample shows the conditional pass can delete tokens inside `{{#if}}`
blocks, and that `renderFile` is not idempotent in general.) -/
theorem processVariables_preserves_unresolved (content : String)
    (context : TemplateContext) (k : String)
    (hne : k.toList ≠ []) (hword : ∀ a ∈ k.toList, isWordChar a = true)
    (habs : context k = none)
    (hocc : includesS content ("\x7b\x7b" ++ k ++ "\x7d\x7d") = true) :
    includesS (processVariables content context) ("\x7b\x7b" ++ k ++ "\x7d\x7d") = true
    ∧ ('#' ∉ content.toList →
        includesS (renderFile content context) ("\x7b\x7b" ++ k ++ "\x7d\x7d") = true) := by
  have hpat : ("\x7b\x7b" ++ k ++ "\x7d\x7d").toList
      = '{' :: '{' :: (k.toList ++ ['}', '}']) := by
    show "\x7b\x7b".toList ++ k.toList ++ "\x7d\x7d".toList
      = '{' :: '{' :: (k.toList ++ ['}', '}'])
    simp
  have hmain : includesS (processVariables content context)
      ("\x7b\x7b" ++ k ++ "\x7d\x7d") = true := by
    show hasSub ("\x7b\x7b" ++ k ++ "\x7d\x7d").toList
      (scanVars context content.toList) = true
    rw [hpat]
    unfold scanVars
    apply scanVarsF_preserves context k.toList hne hword habs _ _ le_rfl
    rw [← hpat]
    exact hocc
  refine ⟨hmain, ?_⟩
  intro hnohash
  unfold renderFile
  rw [processConditionals_no_hash _ _ hnohash]
  exact hmain

/-- Witness for C4: a conditional-free content with an unresolved token
keeps the token through both `processVariables` and `renderFile`. -/
theorem processVariables_preserves_unresolved_witness :
    includesS (processVariables "a \x7b\x7bx\x7d\x7d \x7b\x7bk\x7d\x7d b"
        (fun n => if n = "x" then some "V" else none)) "\x7b\x7bk\x7d\x7d" = true
    ∧ includesS (renderFile "a \x7b\x7bx\x7d\x7d \x7b\x7bk\x7d\x7d b"
        (fun n => if n = "x" then some "V" else none)) "\x7b\x7bk\x7d\x7d" = true := by
  obtain ⟨h1, h2⟩ := processVariables_preserves_unresolved
    "a \x7b\x7bx\x7d\x7d \x7b\x7bk\x7d\x7d b" (fun n => if n = "x" then some "V" else none) "k"
    (by decide) (by decide) rfl (by decide)
  exact ⟨h1, h2 (by decide)⟩

/-- Counterexample for C4 as frozen: `renderFile` *can* delete an unresolved
token — the conditional pass removes tokens inside a false `{{#if}}` block —
and rendering twice can differ from rendering once (removing a conditional
block can splice together a new conditional that only the second pass
evaluates). -/
theorem renderFile_unresolved_counterexample :
    (includesS "\x7b\x7b#if x\x7d\x7dy\x7b\x7bk\x7d\x7d\x7b\x7b/if\x7d\x7d" "\x7b\x7bk\x7d\x7d" = true
      ∧ renderFile "\x7b\x7b#if x\x7d\x7dy\x7b\x7bk\x7d\x7d\x7b\x7b/if\x7d\x7d" (fun _ => none) = ""
      ∧ includesS "" "\x7b\x7bk\x7d\x7d" = false)
    ∧ (includesS "\x7b\x7b#\x7b\x7b#if a\x7d\x7dB\x7b\x7b/if\x7d\x7dif x\x7d\x7d\x7b\x7bk\x7d\x7d\x7b\x7b/if\x7d\x7d" "\x7b\x7bk\x7d\x7d" = true
      ∧ renderFile
          (renderFile "\x7b\x7b#\x7b\x7b#if a\x7d\x7dB\x7b\x7b/if\x7d\x7dif x\x7d\x7d\x7b\x7bk\x7d\x7d\x7b\x7b/if\x7d\x7d" (fun _ => none))
          (fun _ => none)
        ≠ renderFile "\x7b\x7b#\x7b\x7b#if a\x7d\x7dB\x7b\x7b/if\x7d\x7dif x\x7d\x7d\x7b\x7bk\x7d\x7d\x7b\x7b/if\x7d\x7d" (fun _ => none)) := by
  refine ⟨⟨by decide, by decide, by decide⟩, by decide, by decide⟩

/-! ### JavaScript-map lemmas for the final conflict-resolution fold -/
theorem jsMapSet_cons_ne {V : Type} (p : String × V) (t : List (String × V))
    (k : String) (v : V) (h : p.1 ≠ k) :
    jsMapSet (p :: t) k v = p :: jsMapSet t k v := by
  have hbeq : (p.1 == k) = false := by simpa using h
  unfold jsMapSet
  rw [List.any_cons, hbeq]
  simp only [Bool.false_or]
  split
  · rw [List.map_cons, if_neg (by simp [hbeq])]
  · rfl

theorem jsMapGet_cons_ne {V : Type} (p : String × V) (t : List (String × V))
    (k : String) (h : p.1 ≠ k) : jsMapGet (p :: t) k = jsMapGet t k := by
  have hbeq : (p.1 == k) = false := by simpa using h
  unfold jsMapGet
  rw [List.find?_cons, hbeq]

theorem jsMapGet_cons_self {V : Type} (t : List (String × V)) (k : String) (v : V) :
    jsMapGet ((k, v) :: t) k = some v := by
  unfold jsMapGet
  rw [List.find?_cons]
  simp

theorem jsMapGet_set_self {V : Type} (m : List (String × V)) (k : String) (v : V) :
    jsMapGet (jsMapSet m k v) k = some v := by
  induction m with
  | nil =>
    show jsMapGet (jsMapSet [] k v) k = some v
    unfold jsMapSet
    simp only [List.any_nil, if_false, List.nil_append, Bool.false_eq_true]
    exact jsMapGet_cons_self _ _ _
  | cons p t ih =>
    by_cases hp : p.1 = k
    · have hany : (p :: t).any (fun q => q.1 == k) = true := by
        rw [List.any_cons]
        simp [hp]
      unfold jsMapSet
      rw [if_pos hany, List.map_cons, if_pos (by simp [hp])]
      exact jsMapGet_cons_self _ _ _
    · rw [jsMapSet_cons_ne p t k v hp, jsMapGet_cons_ne p _ k hp]
      exact ih

theorem jsMapGet_set_ne {V : Type} (m : List (String × V)) (k' k : String) (v : V)
    (h : k' ≠ k) : jsMapGet (jsMapSet m k' v) k = jsMapGet m k := by
  induction m with
  | nil =>
    unfold jsMapSet
    simp only [List.any_nil, if_false, List.nil_append, Bool.false_eq_true]
    rw [jsMapGet_cons_ne _ _ _ h]
  | cons p t ih =>
    by_cases hp : p.1 = k'
    · have hany : (p :: t).any (fun q => q.1 == k') = true := by
        rw [List.any_cons]
        simp [hp]
      unfold jsMapSet
      rw [if_pos hany, List.map_cons, if_pos (by simp [hp])]
      rw [jsMapGet_cons_ne _ _ _ h, jsMapGet_cons_ne p _ k (by rw [hp]; exact h)]
      -- remaining: get over the pointwise update map with key ≠ k
      clear hany ih
      induction t with
      | nil => rfl
      | cons q u ihq =>
        rw [List.map_cons]
        by_cases hq : q.1 = k'
        · rw [if_pos (by simp [hq])]
          rw [jsMapGet_cons_ne _ _ _ h, jsMapGet_cons_ne q _ k (by rw [hq]; exact h)]
          exact ihq
        · rw [if_neg (by simp [hq])]
          by_cases hqk : q.1 = k
          · show jsMapGet (q :: _) k = jsMapGet (q :: u) k
            obtain ⟨q1, q2⟩ := q
            simp only at hqk
            subst hqk
            rw [jsMapGet_cons_self, jsMapGet_cons_self]
          · rw [jsMapGet_cons_ne _ _ _ hqk, jsMapGet_cons_ne q _ k hqk]
            exact ihq
    · rw [jsMapSet_cons_ne p t k' v hp]
      by_cases hpk : p.1 = k
      · obtain ⟨p1, p2⟩ := p
        simp only at hpk
        subst hpk
        rw [jsMapGet_cons_self, jsMapGet_cons_self]
      · rw [jsMapGet_cons_ne _ _ _ hpk, jsMapGet_cons_ne p _ k hpk]
        exact ih

theorem buildMap_get_skip (L : List TemplateFile) :
    ∀ (m0 : List (String × TemplateFile)) (P : String),
      (∀ g ∈ L, g.path ≠ P) →
      jsMapGet (L.foldl (fun m f => jsMapSet m f.path f) m0) P = jsMapGet m0 P := by
  induction L with
  | nil => intro m0 P _; rfl
  | cons g rest ih =>
    intro m0 P hne
    rw [List.foldl_cons, ih _ _ (fun f hf => hne f (List.mem_cons_of_mem _ hf))]
    exact jsMapGet_set_ne _ _ _ _ (hne g (List.mem_cons_self _ _))

theorem buildMap_get_of_uniq (L : List TemplateFile) (v : TemplateFile) :
    ∀ (m0 : List (String × TemplateFile)), v ∈ L →
      (∀ g ∈ L, g.path = v.path → g = v) →
      jsMapGet (L.foldl (fun m f => jsMapSet m f.path f) m0) v.path = some v := by
  induction L with
  | nil => intro m0 hv _; exact absurd hv (List.not_mem_nil _)
  | cons g rest ih =>
    intro m0 hv huniq
    by_cases hvr : v ∈ rest
    · rw [List.foldl_cons]
      exact ih _ hvr (fun f hf => huniq f (List.mem_cons_of_mem _ hf))
    · have hvg : v = g := by
        rcases List.mem_cons.mp hv with h | h
        · exact h
        · exact absurd h hvr
      have hrest : ∀ f ∈ rest, f.path ≠ v.path := by
        intro f hf hcon
        have := huniq f (List.mem_cons_of_mem _ hf) hcon
        rw [this] at hf
        exact hvr hf
      rw [List.foldl_cons, buildMap_get_skip rest _ _ hrest, ← hvg]
      exact jsMapGet_set_self _ _ _

theorem fileMapFold_get_skip (L : List TemplateFile) :
    ∀ (m0 : List (String × TemplateFile)) (P : String),
      (∀ g ∈ L, g.path ≠ P) →
      jsMapGet (L.foldl
          (fun m f => if includesS f.path ".partial." then m
            else jsMapSet m f.path f) m0) P
        = jsMapGet m0 P := by
  induction L with
  | nil => intro m0 P _; rfl
  | cons g rest ih =>
    intro m0 P hne
    rw [List.foldl_cons, ih _ _ (fun f hf => hne f (List.mem_cons_of_mem _ hf))]
    split
    · rfl
    · exact jsMapGet_set_ne _ _ _ _ (hne g (List.mem_cons_self _ _))

/-- Last writer wins in the final conflict-resolution fold. -/
theorem fileMapFold_get_last (L1 L2 : List TemplateFile) (g : TemplateFile)
    (m0 : List (String × TemplateFile))
    (hmrk : includesS g.path ".partial." = false)
    (h2 : ∀ f ∈ L2, f.path ≠ g.path) :
    jsMapGet ((L1 ++ g :: L2).foldl
        (fun m f => if includesS f.path ".partial." then m
          else jsMapSet m f.path f) m0) g.path = some g := by
  rw [List.foldl_append, List.foldl_cons, fileMapFold_get_skip L2 _ _ h2]
  rw [if_neg (by simp [hmrk])]
  exact jsMapGet_set_self _ _ _

theorem mem_fileMapFold (L : List TemplateFile) :
    ∀ (m0 : List (String × TemplateFile)) (p : String × TemplateFile),
      p ∈ L.foldl (fun m f => if includesS f.path ".partial." then m
          else jsMapSet m f.path f) m0 →
      (∃ f ∈ L, p = (f.path, f)) ∨ p ∈ m0 := by
  induction L with
  | nil => intro m0 p h; right; simpa using h
  | cons f rest ih =>
    intro m0 p h
    rw [List.foldl_cons] at h
    rcases ih _ p h with h' | h'
    · obtain ⟨g, hg, hpg⟩ := h'
      exact Or.inl ⟨g, List.mem_cons_of_mem _ hg, hpg⟩
    · by_cases hpart : includesS f.path ".partial." = true
      · rw [if_pos hpart] at h'
        exact Or.inr h'
      · rw [if_neg hpart] at h'
        rcases mem_jsMapSet m0 f.path f p h' with h'' | h''
        · exact Or.inl ⟨f, List.mem_cons_self _ _, h''⟩
        · exact Or.inr h''

theorem keys_nodup_jsMapSet {V : Type} (m : List (String × V)) (k : String)
    (v : V) (h : (m.map Prod.fst).Nodup) :
    ((jsMapSet m k v).map Prod.fst).Nodup := by
  unfold jsMapSet
  split
  · rw [List.map_map]
    have hfun : (Prod.fst ∘ fun p : String × V =>
        if (p.1 == k) = true then (k, v) else p) = Prod.fst := by
      funext p
      by_cases hp : p.1 = k
      · simp [hp]
      · simp [hp]
    rw [hfun]
    exact h
  · rename_i hany
    rw [List.map_append]
    refine List.Nodup.append h (by simp) ?_
    intro a ha hb
    simp only [List.map_cons, List.map_nil, List.mem_singleton] at hb
    subst hb
    obtain ⟨p, hp, hpa⟩ := List.mem_map.mp ha
    have := List.any_eq_false.mp (Bool.not_eq_true _ ▸ hany) p hp
    simp at this
    exact this (by rw [hpa])

theorem keys_nodup_fileMapFold (L : List TemplateFile) :
    ∀ (m0 : List (String × TemplateFile)), (m0.map Prod.fst).Nodup →
      ((L.foldl (fun m f => if includesS f.path ".partial." then m
          else jsMapSet m f.path f) m0).map Prod.fst).Nodup := by
  induction L with
  | nil => intro m0 h; exact h
  | cons f rest ih =>
    intro m0 h
    rw [List.foldl_cons]
    apply ih
    split
    · exact h
    · exact keys_nodup_jsMapSet m0 f.path f h

theorem keys_nodup_buildMap (L : List TemplateFile) :
    ∀ (m0 : List (String × TemplateFile)), (m0.map Prod.fst).Nodup →
      ((L.foldl (fun m f => jsMapSet m f.path f) m0).map Prod.fst).Nodup := by
  induction L with
  | nil => intro m0 h; exact h
  | cons f rest ih =>
    intro m0 h
    rw [List.foldl_cons]
    exact ih _ (keys_nodup_jsMapSet m0 f.path f h)

theorem jsMapGet_eq_of_mem_nodup {V : Type} (m : List (String × V)) (k : String)
    (v : V) (hmem : (k, v) ∈ m) (hnd : (m.map Prod.fst).Nodup) :
    jsMapGet m k = some v := by
  induction m with
  | nil => exact absurd hmem (List.not_mem_nil _)
  | cons p t ih =>
    rcases List.mem_cons.mp hmem with h | h
    · rw [← h]
      exact jsMapGet_cons_self _ _ _
    · have hne : p.1 ≠ k := by
        intro hcon
        have hk : k ∈ t.map Prod.fst := List.mem_map.mpr ⟨(k, v), h, rfl⟩
        rw [List.map_cons, List.nodup_cons] at hnd
        exact hnd.1 (hcon ▸ hk)
      rw [jsMapGet_cons_ne _ _ _ hne]
      rw [List.map_cons, List.nodup_cons] at hnd
      exact ih h hnd.2

theorem entry_of_jsMapGet {V : Type} (m : List (String × V)) (k : String) (v : V)
    (h : jsMapGet m k = some v) : (k, v) ∈ m := by
  unfold jsMapGet at h
  obtain ⟨p, hp, hpv⟩ := Option.map_eq_some'.mp h
  have hmem := List.mem_of_find?_eq_some hp
  have hkey := List.find?_some hp
  simp only [beq_iff_eq] at hkey
  have : p = (k, v) := by
    obtain ⟨p1, p2⟩ := p
    simp only at hkey hpv
    rw [hkey, hpv]
  rwa [this] at hmem

theorem mem_values_of_jsMapGet {V : Type} (m : List (String × V)) (k : String)
    (v : V) (h : jsMapGet m k = some v) : v ∈ jsMapValues m := by
  have := entry_of_jsMapGet m k v h
  exact List.mem_map.mpr ⟨(k, v), this, rfl⟩

/-- Entries survive the partial-merge loop when no base partial targets
their key. -/
theorem mergePartialLoop_keep (baseFiles : List TemplateFile) :
    ∀ (m : List (String × TemplateFile)) (k : String) (v : TemplateFile),
      (k, v) ∈ m →
      (∀ f ∈ baseFiles, includesS f.path ".partial." = true →
        replaceS f.path ".partial." "." ≠ k) →
      (k, v) ∈ (mergePartialLoop baseFiles m).2 := by
  induction baseFiles with
  | nil => intro m k v hm _; exact hm
  | cons bf rest ih =>
    intro m k v hm hno
    have hno' : ∀ f ∈ rest, includesS f.path ".partial." = true →
        replaceS f.path ".partial." "." ≠ k :=
      fun f hf => hno f (List.mem_cons_of_mem _ hf)
    by_cases hmark : includesS bf.path ".partial." = true
    · cases hget : jsMapGet m (replaceS bf.path ".partial." ".") with
      | some tf =>
        have hstep : (mergePartialLoop (bf :: rest) m).2
            = (mergePartialLoop rest
                (jsMapDelete m (replaceS bf.path ".partial." "."))).2 := by
          rw [mergePartialLoop]
          simp only [hmark, if_true, hget]
        rw [hstep]
        apply ih _ _ _ _ hno'
        refine List.mem_filter.mpr ⟨hm, ?_⟩
        have hne : k ≠ replaceS bf.path ".partial." "." :=
          fun hcon => hno bf (List.mem_cons_self _ _) hmark hcon.symm
        simpa using hne
      | none =>
        have hstep : (mergePartialLoop (bf :: rest) m).2
            = (mergePartialLoop rest m).2 := by
          rw [mergePartialLoop]
          simp only [hmark, if_true, hget]
        rw [hstep]
        exact ih _ _ _ hm hno'
    · have hstep : (mergePartialLoop (bf :: rest) m).2
          = (mergePartialLoop rest m).2 := by
        rw [mergePartialLoop]
        simp only [hmark, if_false, Bool.false_eq_true]
      rw [hstep]
      exact ih _ _ _ hm hno'

/-- The remaining template map after the loop is a sublist of the original
(only `delete` is ever applied). -/
theorem mergePartialLoop_sublist (baseFiles : List TemplateFile) :
    ∀ m : List (String × TemplateFile),
      List.Sublist (mergePartialLoop baseFiles m).2 m := by
  induction baseFiles with
  | nil => intro m; exact List.Sublist.refl m
  | cons bf rest ih =>
    intro m
    by_cases hmark : includesS bf.path ".partial." = true
    · cases hget : jsMapGet m (replaceS bf.path ".partial." ".") with
      | some tf =>
        have hstep : (mergePartialLoop (bf :: rest) m).2
            = (mergePartialLoop rest
                (jsMapDelete m (replaceS bf.path ".partial." "."))).2 := by
          rw [mergePartialLoop]
          simp only [hmark, if_true, hget]
        rw [hstep]
        exact List.Sublist.trans (ih _) (List.filter_sublist m)
      | none =>
        have hstep : (mergePartialLoop (bf :: rest) m).2
            = (mergePartialLoop rest m).2 := by
          rw [mergePartialLoop]
          simp only [hmark, if_true, hget]
        rw [hstep]
        exact ih m
    · have hstep : (mergePartialLoop (bf :: rest) m).2
          = (mergePartialLoop rest m).2 := by
        rw [mergePartialLoop]
        simp only [hmark, if_false, Bool.false_eq_true]
      rw [hstep]
      exact ih m

/-- Claim C6, amended: no base partial may target the descriptor.  When both
trees contain a package-descriptor file but the base side's content fails to
parse, the descriptor merge is skipped and — provided template paths are
unique for the descriptor and no base partial renames onto it — the output
entry for that path is the template's own rendered descriptor, verbatim. -/
theorem renderWithInheritance_malformed_base (fsys : FileSystem)
    (parseJson : String → Option PkgObj) (stringifyJson : PkgObj → String)
    (templatePath bp : String) (context : TemplateContext)
    (bpf tpf : TemplateFile)
    (hbp : bp ≠ "") (hex : fsys.pathExists bp = true)
    (hbfind : (render fsys bp context).find? isPkgPath = some bpf)
    (htfind : (render fsys templatePath context).find? isPkgPath = some tpf)
    (hparse : parseJson bpf.content = none)
    (huniq : ∀ g ∈ render fsys templatePath context, g.path = tpf.path → g = tpf)
    (hnopart : ∀ f ∈ render fsys bp context,
        includesS f.path ".partial." = true →
        replaceS f.path ".partial." "." ≠ tpf.path) :
    tpf ∈ renderWithInheritance fsys parseJson stringifyJson templatePath
        (some bp) context
    ∧ ∀ f ∈ renderWithInheritance fsys parseJson stringifyJson templatePath
        (some bp) context, f.path = tpf.path → f = tpf := by
  have hout : renderWithInheritance fsys parseJson stringifyJson templatePath
      (some bp) context
      = jsMapValues
        ((mergePartialFiles (render fsys bp context)
            (render fsys templatePath context)).foldl
          (fun m f => if includesS f.path ".partial." then m
            else jsMapSet m f.path f) []) := by
    simp only [renderWithInheritance]
    rw [if_neg hbp, if_neg (by simp [hex])]
    simp only [hbfind, htfind, hparse]
  have hPmark : includesS tpf.path ".partial." = false := by
    have hpkg := List.find?_some htfind
    unfold isPkgPath at hpkg
    rw [Bool.or_eq_true] at hpkg
    rcases hpkg with h' | h'
    · simp only [beq_iff_eq] at h'
      rw [h']
      decide
    · simp only [beq_iff_eq] at h'
      rw [h']
      decide
  have htpfmem : tpf ∈ render fsys templatePath context :=
    List.mem_of_find?_eq_some htfind
  have hgetBuild : jsMapGet
      ((render fsys templatePath context).foldl
        (fun m f => jsMapSet m f.path f) []) tpf.path = some tpf :=
    buildMap_get_of_uniq _ tpf [] htpfmem huniq
  have hentry := entry_of_jsMapGet _ _ _ hgetBuild
  have hkeep : (tpf.path, tpf) ∈
      (mergePartialLoop (render fsys bp context)
        ((render fsys templatePath context).foldl
          (fun m f => jsMapSet m f.path f) [])).2 :=
    mergePartialLoop_keep _ _ _ _ hentry hnopart
  have hndB : (((render fsys templatePath context).foldl
      (fun m f => jsMapSet m f.path f) []).map Prod.fst).Nodup :=
    keys_nodup_buildMap _ [] (by simp)
  have hsub := mergePartialLoop_sublist (render fsys bp context)
    ((render fsys templatePath context).foldl (fun m f => jsMapSet m f.path f) [])
  have hndL : ((mergePartialLoop (render fsys bp context)
      ((render fsys templatePath context).foldl
        (fun m f => jsMapSet m f.path f) [])).2.map Prod.fst).Nodup :=
    List.Sublist.nodup (List.Sublist.map _ hsub) hndB
  obtain ⟨M1, M2, hM⟩ := List.mem_iff_append.mp hkeep
  have hnotM2 : tpf.path ∉ M2.map Prod.fst := by
    rw [hM] at hndL
    simp only [List.map_append, List.map_cons] at hndL
    have h2 := List.Nodup.of_append_right hndL
    exact (List.nodup_cons.mp h2).1
  have hM2ne : ∀ f ∈ jsMapValues M2, f.path ≠ tpf.path := by
    intro f hf
    obtain ⟨p, hp, hpf⟩ := List.mem_map.mp hf
    have hploop : p ∈ (mergePartialLoop (render fsys bp context)
        ((render fsys templatePath context).foldl
          (fun m f => jsMapSet m f.path f) [])).2 := by
      rw [hM]
      exact List.mem_append_right _ (List.mem_cons_of_mem _ hp)
    have hpbuild : p ∈ (render fsys templatePath context).foldl
        (fun m f => jsMapSet m f.path f) [] :=
      List.Sublist.subset hsub hploop
    have hkey : p.1 = p.2.path := by
      rcases mem_buildMap _ [] p hpbuild with h' | h'
      · obtain ⟨g, hg, rfl⟩ := h'
        rfl
      · simp at h'
    intro hcon
    apply hnotM2
    have : p.1 = tpf.path := by rw [hkey, hpf, hcon]
    rw [← this]
    exact List.mem_map.mpr ⟨p, hp, rfl⟩
  have hMF : mergePartialFiles (render fsys bp context)
      (render fsys templatePath context)
      = ((mergePartialLoop (render fsys bp context)
          ((render fsys templatePath context).foldl
            (fun m f => jsMapSet m f.path f) [])).1 ++ jsMapValues M1)
        ++ tpf :: jsMapValues M2 := by
    show (mergePartialLoop (render fsys bp context)
        ((render fsys templatePath context).foldl
          (fun m f => jsMapSet m f.path f) [])).1
      ++ jsMapValues (mergePartialLoop (render fsys bp context)
        ((render fsys templatePath context).foldl
          (fun m f => jsMapSet m f.path f) [])).2 = _
    rw [hM]
    simp [jsMapValues]
  have hgetFinal : jsMapGet
      ((mergePartialFiles (render fsys bp context)
        (render fsys templatePath context)).foldl
        (fun m f => if includesS f.path ".partial." then m
          else jsMapSet m f.path f) []) tpf.path = some tpf := by
    rw [hMF]
    exact fileMapFold_get_last _ _ tpf [] hPmark hM2ne
  constructor
  · rw [hout]
    exact mem_values_of_jsMapGet _ _ _ hgetFinal
  · intro f hf hfp
    rw [hout] at hf
    obtain ⟨p, hp, hpf⟩ := List.mem_map.mp hf
    have hkey : p.1 = p.2.path := by
      rcases mem_fileMapFold _ [] p hp with h' | h'
      · obtain ⟨g, hg, rfl⟩ := h'
        rfl
      · simp at h'
    have hndF : (((mergePartialFiles (render fsys bp context)
        (render fsys templatePath context)).foldl
        (fun m f => if includesS f.path ".partial." then m
          else jsMapSet m f.path f) []).map Prod.fst).Nodup :=
      keys_nodup_fileMapFold _ [] (by simp)
    have hpentry : (f.path, f) ∈ (mergePartialFiles (render fsys bp context)
        (render fsys templatePath context)).foldl
        (fun m f => if includesS f.path ".partial." then m
          else jsMapSet m f.path f) [] := by
      have hpeq : p = (f.path, f) := by
        obtain ⟨p1, p2⟩ := p
        simp only at hpf hkey
        rw [hpf] at hkey
        rw [hkey, hpf]
      rwa [hpeq] at hp
    have hgf := jsMapGet_eq_of_mem_nodup _ _ _ hpentry hndF
    rw [hfp, hgetFinal] at hgf
    injection hgf with hgf
    exact hgf.symm

/-- Witness for C6: a concrete pair of trees whose base descriptor fails to
parse; the output descriptor entry is the template's, byte for byte. -/
theorem renderWithInheritance_malformed_base_witness :
    (⟨"package.json", "\x7bok\x7d", Encoding.utf8⟩ : TemplateFile)
      ∈ renderWithInheritance
        ⟨fun _ => true,
         fun p => if p = "base" then [("package.json", "\x7bbad")]
           else if p = "t" then [("package.json", "\x7bok\x7d")] else []⟩
        (fun _ => none) (fun _ => "") "t" (some "base") (fun _ => none) :=
  (renderWithInheritance_malformed_base
    ⟨fun _ => true,
     fun p => if p = "base" then [("package.json", "\x7bbad")]
       else if p = "t" then [("package.json", "\x7bok\x7d")] else []⟩
    (fun _ => none) (fun _ => "") "t" "base" (fun _ => none)
    ⟨"package.json", "\x7bbad", Encoding.utf8⟩
    ⟨"package.json", "\x7bok\x7d", Encoding.utf8⟩
    (by decide) rfl (by decide) (by decide) rfl (by decide) (by decide)).1

/-- Counterexample for C6 as frozen: if a base *partial* also targets the
descriptor path, the output entry is the template content with the partial
appended — not the template's rendered content kept verbatim — even though
the base descriptor failed to parse and the JSON merge was skipped. -/
theorem renderWithInheritance_malformed_base_counterexample :
    renderWithInheritance
        ⟨fun _ => true,
         fun p => if p = "base" then
             [("package.json", "\x7bbad"), ("package.partial.json", "P")]
           else if p = "t" then [("package.json", "T")] else []⟩
        (fun _ => none) (fun _ => "") "t" (some "base") (fun _ => none)
      = [⟨"package.json", "T\nP", Encoding.utf8⟩]
    ∧ (render
        ⟨fun _ => true,
         fun p => if p = "base" then
             [("package.json", "\x7bbad"), ("package.partial.json", "P")]
           else if p = "t" then [("package.json", "T")] else []⟩
        "base" (fun _ => none)).find? isPkgPath
      = some ⟨"package.json", "\x7bbad", Encoding.utf8⟩
    ∧ (render
        ⟨fun _ => true,
         fun p => if p = "base" then
             [("package.json", "\x7bbad"), ("package.partial.json", "P")]
           else if p = "t" then [("package.json", "T")] else []⟩
        "t" (fun _ => none)).find? isPkgPath
      = some ⟨"package.json", "T", Encoding.utf8⟩
    ∧ ("T\nP" : String) ≠ "T" := by
  refine ⟨by decide, by decide, by decide, by decide⟩

end Extn

